import Mathlib

/-!
wordleSolver: feedback engine and heuristic solver.

A shallow embedding of `wordle/wordle.go` and `solver/solver.go`.

* A Go `string` is its sequence of bytes (`GoString`); `s[i]` is a byte, `len(s)` the number
  of bytes, and `for i := range s` visits the byte offsets at which a UTF-8 encoded rune starts.
* A runtime panic (index out of range), `log.Panicf` and `log.Fatalf` end the computation; they
  are the `Except.error` results below.
* `GuessResult` is the array type `[5]PositionResult`.
-/

namespace WordleSolver

/-! ## Data model -/

/-- The three tags of `wordle.go`, in the order of the `iota` block (`NotPresent` is the zero
value of the type). -/
inductive PositionResult
  | NotPresent
  | Present
  | Correct
  deriving DecidableEq, Repr, Fintype

/-- The Go type `[5]PositionResult`: an array of exactly 5 tags. -/
abbrev GuessResult := Mathlib.Vector PositionResult 5

/-- A Go string: its bytes. -/
abbrev GoString := List (Fin 256)

/-- The ways a call can end without returning. -/
inductive Failure
  /-- Go runtime panic: index out of range. -/
  | indexOutOfRange
  /-- The call `log.Fatalf("no possible words left")` of `NextGuess`. -/
  | noPossibleWordsLeft
  /-- The call `log.Panicf("invalid result: %s", result)` of `ParseResult`. -/
  | invalidResult
  /-- The call `log.Panicf("invalid character in result: %c", r)` of `ParseResult`. -/
  | invalidCharacter
  deriving DecidableEq, Repr

deriving instance DecidableEq for Except

/-! ## Iterating over a string

`for i := range s` decodes one UTF-8 rune per iteration; `i` is the byte offset of its first
byte. A byte that does not start a valid encoding is consumed alone. -/

/-- A UTF-8 continuation byte, `0x80..0xBF`. -/
def isCont (b : Fin 256) : Bool :=
  decide (0x80 ≤ b.val ∧ b.val ≤ 0xBF)

/-- Number of bytes consumed by one iteration of a `range` loop whose remaining input is `s`:
the length of the well-formed UTF-8 encoding at the head of `s`, and 1 when the head byte is
ASCII or does not start a well-formed encoding. -/
def runeWidth : GoString → Nat
  | [] => 0
  | b0 :: rest =>
    if b0.val < 0xC2 then 1
    else if b0.val < 0xE0 then
      match rest with
      | b1 :: _ => if isCont b1 then 2 else 1
      | _ => 1
    else if b0.val < 0xF0 then
      match rest with
      | b1 :: b2 :: _ =>
        if (if b0.val = 0xE0 then 0xA0 else 0x80) ≤ b1.val ∧
            b1.val ≤ (if b0.val = 0xED then 0x9F else 0xBF) ∧ isCont b2 then 3 else 1
      | _ => 1
    else if b0.val < 0xF5 then
      match rest with
      | b1 :: b2 :: b3 :: _ =>
        if (if b0.val = 0xF0 then 0x90 else 0x80) ≤ b1.val ∧
            b1.val ≤ (if b0.val = 0xF4 then 0x8F else 0xBF) ∧ isCont b2 ∧ isCont b3 then 4 else 1
      | _ => 1
    else 1

/-- The offsets visited from offset `i` on, `s` being what is left of the string there.
One unit of `fuel` per iteration; the length of `s` is enough. -/
def rangeFrom : Nat → Nat → GoString → List Nat
  | 0, _, _ => []
  | _ + 1, _, [] => []
  | fuel + 1, i, b :: rest =>
    i :: rangeFrom fuel (i + runeWidth (b :: rest)) ((b :: rest).drop (runeWidth (b :: rest)))

/-- The values taken by `i` in `for i := range s`. -/
def rangeIndices (s : GoString) : List Nat :=
  rangeFrom s.length 0 s

/-! ## `wordle.ComputeResult` -/

/-- The state of the two loops of `ComputeResult`: `result` and `secretCharCount`. A missing key
of the Go map reads as 0, so the map is the function from keys to counts. -/
abbrev PassState := GuessResult × (Fin 256 → Int)

/-- Body of the first loop at offset `i`. -/
def firstPassStep (guess secret : GoString) (st : PassState) (i : Nat) : Except Failure PassState :=
  match guess[i]?, secret[i]? with
  | some gi, some si =>
    if gi = si then
      if h : i < 5 then .ok (st.1.set ⟨i, h⟩ .Correct, st.2)
      else .error .indexOutOfRange
    else .ok (st.1, Function.update st.2 si (st.2 si + 1))
  | _, _ => .error .indexOutOfRange

/-- Body of the second loop at offset `i`. -/
def secondPassStep (guess : GoString) (st : PassState) (i : Nat) : Except Failure PassState :=
  if h : i < 5 then
    if st.1.get ⟨i, h⟩ = .Correct then .ok st
    else
      match guess[i]? with
      | some gi =>
        if st.2 gi > 0 then
          .ok (st.1.set ⟨i, h⟩ .Present, Function.update st.2 gi (st.2 gi - 1))
        else .ok (st.1.set ⟨i, h⟩ .NotPresent, st.2)
      | none => .error .indexOutOfRange
  else .error .indexOutOfRange

/-- A `for ... range` loop: `step` is the loop body, run on each item in turn from the state
left by the previous iteration; the loop stops at the first failure. -/
def runLoop {σ ι : Type} (step : σ → ι → Except Failure σ) : List ι → σ → Except Failure σ
  | [], st => .ok st
  | i :: items, st =>
    match step st i with
    | .ok st' => runLoop step items st'
    | .error e => .error e

/-- The function `ComputeResult(guess, secret)` of `wordle.go`. -/
def ComputeResult (guess secret : GoString) : Except Failure GuessResult :=
  match runLoop (firstPassStep guess secret) (rangeIndices guess)
      (Mathlib.Vector.replicate 5 .NotPresent, fun _ => 0) with
  | .error e => .error e
  | .ok st1 =>
    match runLoop (secondPassStep guess) (rangeIndices guess) st1 with
    | .error e => .error e
    | .ok st2 => .ok st2.1

/-- The tags of `ComputeResult(guess, secret)` as a list, `none` when the call panics. -/
def computeTags (guess secret : GoString) : Option (List PositionResult) :=
  match ComputeResult guess secret with
  | .ok r => some r.toList
  | .error _ => none

/-- The word "apple". -/
def apple : GoString := [97, 112, 112, 108, 101]
/-- The word "ample". -/
def ample : GoString := [97, 109, 112, 108, 101]
/-- The word "apric". -/
def apric : GoString := [97, 112, 114, 105, 99]
/-- The word "allee". -/
def allee : GoString := [97, 108, 108, 101, 101]
/-- The word "peach". -/
def peach : GoString := [112, 101, 97, 99, 104]
/-- The word "zzzzz". -/
def zzzzz : GoString := [122, 122, 122, 122, 122]

/-- The 5-byte string "éabc" (`é` is the two bytes `C3 A9`). -/
def eacuteAbc : GoString := [0xC3, 0xA9, 97, 98, 99]
/-- The 5-byte string "©abc" (`©` is the two bytes `C2 A9`). -/
def copyrightAbc : GoString := [0xC2, 0xA9, 97, 98, 99]
/-- The 5-byte string "aébc". -/
def aEacuteBc : GoString := [97, 0xC3, 0xA9, 98, 99]
/-- The 5-byte string "abcé". -/
def abcEacute : GoString := [97, 98, 99, 0xC3, 0xA9]

/-- The string "éabcd": 5 characters, 6 bytes. -/
def eacuteAbcd : GoString := [0xC3, 0xA9, 97, 98, 99, 100]
/-- The word "abcde". -/
def abcde : GoString := [97, 98, 99, 100, 101]

/-- A string of `n` ASCII characters: `n` bytes, each below `0x80`. -/
def IsAscii (n : Nat) (s : GoString) : Prop :=
  s.length = n ∧ ∀ b ∈ s, b.val < 0x80

instance (n : Nat) (s : GoString) : Decidable (IsAscii n s) :=
  @instDecidableAnd _ _ _ (List.decidableBAll (fun b : Fin 256 => b.val < 0x80) s)

/-- Number of offsets `k < n` at which `p` holds. -/
def countUpTo (p : Nat → Bool) (n : Nat) : Nat :=
  (List.range n).countP p

/-- Occurrences of the byte `x` in the secret among the first `n` offsets, exact matches with
the guess left out. -/
def secretPool (guess secret : GoString) (x : Fin 256) (n : Nat) : Nat :=
  countUpTo (fun k => decide (secret[k]? = some x ∧ guess[k]? ≠ secret[k]?)) n

/-- Occurrences of the byte `x` in the guess among the first `n` offsets, exact matches with
the secret left out. -/
def guessDemand (guess secret : GoString) (x : Fin 256) (n : Nat) : Nat :=
  countUpTo (fun k => decide (guess[k]? = some x ∧ guess[k]? ≠ secret[k]?)) n

/-- The state of the first loop of `ComputeResult` once it has visited the offsets below `n`. -/
def afterFirst (guess secret : GoString) (n : Nat) : PassState :=
  (Mathlib.Vector.ofFn
    (fun i => if i.val < n ∧ guess[i.val]? = secret[i.val]? then .Correct else .NotPresent),
   fun x => (secretPool guess secret x n : Int))

/-- The tag at offset `k` once the second loop has visited the offsets below `m`. -/
def tagAt (guess secret : GoString) (m k : Nat) : PositionResult :=
  if guess[k]? = secret[k]? then .Correct
  else
    match guess[k]? with
    | some x =>
      if k < m ∧ guessDemand guess secret x k < secretPool guess secret x 5 then .Present
      else .NotPresent
    | none => .NotPresent

/-- The state of the second loop of `ComputeResult` once it has visited the offsets below `m`. -/
def afterSecond (guess secret : GoString) (m : Nat) : PassState :=
  (Mathlib.Vector.ofFn (fun i => tagAt guess secret m i.val),
   fun x => (secretPool guess secret x 5 : Int) -
     min (secretPool guess secret x 5 : Int) (guessDemand guess secret x m : Int))

/-- The outcome `ComputeResult(guess, secret)`, `none` when the call panics. -/
def outcome? (guess secret : GoString) : Option GuessResult :=
  match ComputeResult guess secret with
  | .ok r => some r
  | .error _ => none

/-! ## `solver.heuristicSolver` -/

set_option linter.dupNamespace false in
/-- The struct `word`: a word and its weight, an `int64`. -/
structure word where
  word : GoString
  weight : Int
  deriving DecidableEq

/-- The struct `heuristicSolver`. -/
structure heuristicSolver where
  allWords : List word
  possibleWords : List word
  deriving DecidableEq

/-- The value an `int64` holds after an arithmetic result `x`: `x` reduced to
`[-2^63, 2^63)` modulo `2^64`. -/
def wrapInt64 (x : Int) : Int :=
  (x + 2 ^ 63) % 2 ^ 64 - 2 ^ 63

/-- A Go map keyed by `GuessResult`, as the list of its entries, oldest key first. -/
abbrev PartitionMap := List (GuessResult × Int)

/-- The value stored under key `k`, if any. -/
def mapGet : PartitionMap → GuessResult → Option Int
  | [], _ => none
  | (k', v) :: rest, k => if k' = k then some v else mapGet rest k

/-- The value a read `m[k]` yields: the stored value, 0 for a missing key. -/
def mapRead (m : PartitionMap) (k : GuessResult) : Int :=
  (mapGet m k).getD 0

/-- The map after `m[k] = v`. -/
def mapSet : PartitionMap → GuessResult → Int → PartitionMap
  | [], k, v => [(k, v)]
  | (k', v') :: rest, k, v => if k' = k then (k', v) :: rest else (k', v') :: mapSet rest k v

/-- Body of the first loop of `calculateScoreForGuess`; the state is
`(partitionWeights, partitionCounts)`. The weights are `*big.Int`, the counts `int64`. -/
def scoreStep (guess : GoString) (st : PartitionMap × PartitionMap) (possibleWord : word) :
    Except Failure (PartitionMap × PartitionMap) :=
  if possibleWord.word = guess then .ok st
  else
    match ComputeResult guess possibleWord.word with
    | .error e => .error e
    | .ok wordResult =>
      .ok (mapSet st.1 wordResult (mapRead st.1 wordResult + possibleWord.weight),
           mapSet st.2 wordResult (wrapInt64 (mapRead st.2 wordResult + 1)))

/-- The second loop of `calculateScoreForGuess`, visiting the entries of `partitionWeights` in
the order `entries`. -/
def sumPartitions (partitionCounts : PartitionMap) (entries : PartitionMap) : Int :=
  entries.foldl (fun totalExpectedPartitionSize entry =>
    totalExpectedPartitionSize + mapRead partitionCounts entry.1 * entry.2) 0

/-- The method `calculateScoreForGuess`. The result is a `*big.Int`, an unbounded integer. -/
def heuristicSolver.calculateScoreForGuess (h : heuristicSolver) (guess : GoString) :
    Except Failure Int :=
  match runLoop (scoreStep guess) h.possibleWords ([], []) with
  | .error e => .error e
  | .ok (partitionWeights, partitionCounts) => .ok (sumPartitions partitionCounts partitionWeights)

/-- The initial `minScore` of `NextGuess`: `math.MaxInt64` squared. -/
def initialMinScore : Int :=
  (2 ^ 63 - 1) * (2 ^ 63 - 1)

/-- Body of the scoring loop of `NextGuess`; the state is `(guess, minScore)`. -/
def guessStep (h : heuristicSolver) (st : GoString × Int) (w : word) :
    Except Failure (GoString × Int) :=
  match h.calculateScoreForGuess w.word with
  | .error e => .error e
  | .ok score => if score < st.2 then .ok (w.word, score) else .ok st

/-- The method `NextGuess`. `cache` is what `readCachedGuessIfPresent` finds: `some content`
when the cache file exists, `none` when it does not. The result is the guess and the cache as
`NextGuess` leaves it. Failures of the file operations themselves are not modelled. -/
def heuristicSolver.NextGuess (h : heuristicSolver) (cache : Option GoString) :
    Except Failure (GoString × Option GoString) :=
  match h.possibleWords with
  | [] => .error .noPossibleWordsLeft
  | [w] => .ok (w.word, cache)
  | _ :: _ :: _ =>
    match (if h.possibleWords.length = h.allWords.length then cache else none) with
    | some cachedGuess => .ok (cachedGuess, cache)
    | none =>
      match runLoop (guessStep h) h.allWords ([], initialMinScore) with
      | .error e => .error e
      | .ok (guess, _) =>
        .ok (guess, if h.possibleWords.length = h.allWords.length then some guess else cache)

/-- Body of the loop of `AddResult`; the state is `newPossibleWords`. -/
def addResultStep (guess : GoString) (result : GuessResult) (newPossibleWords : List word)
    (w : word) : Except Failure (List word) :=
  match ComputeResult guess w.word with
  | .error e => .error e
  | .ok r => if r = result then .ok (newPossibleWords ++ [w]) else .ok newPossibleWords

/-- The method `AddResult`. -/
def heuristicSolver.AddResult (h : heuristicSolver) (guess : GoString) (result : GuessResult) :
    Except Failure heuristicSolver :=
  match runLoop (addResultStep guess result) h.possibleWords [] with
  | .error e => .error e
  | .ok newPossibleWords => .ok { h with possibleWords := newPossibleWords }

/-- The method `Reset`. -/
def heuristicSolver.Reset (h : heuristicSolver) : heuristicSolver :=
  { h with possibleWords := h.allWords }

/-- The constructor `NewHeuristicSolver`, `words` being the list `getInitialWordsList` reads
from the corpus file. -/
def NewHeuristicSolver (words : List word) : heuristicSolver :=
  { allWords := words, possibleWords := words }

/-- Every word of both lists is 5 ASCII characters long. -/
def WellFormed (h : heuristicSolver) : Prop :=
  (∀ w ∈ h.allWords, IsAscii 5 w.word) ∧ (∀ w ∈ h.possibleWords, IsAscii 5 w.word)

/-- The corpus apple, ample, apric, allee, peach with weight 1 each. -/
def smallCorpus : List word :=
  [⟨apple, 1⟩, ⟨ample, 1⟩, ⟨apric, 1⟩, ⟨allee, 1⟩, ⟨peach, 1⟩]

/-- What one candidate contributes to the partitions of `guess`: its outcome and its weight;
nothing when the candidate is the guess itself (or when `ComputeResult` panics on it). -/
def contribution (guess : GoString) (c : word) : Option (GuessResult × Int) :=
  if c.word = guess then none else (outcome? guess c.word).map (fun o => (o, c.weight))

/-- The update of `(partitionWeights, partitionCounts)` for one contribution. -/
def accumulate (st : PartitionMap × PartitionMap) (p : GuessResult × Int) :
    PartitionMap × PartitionMap :=
  (mapSet st.1 p.1 (mapRead st.1 p.1 + p.2), mapSet st.2 p.1 (wrapInt64 (mapRead st.2 p.1 + 1)))

/-- Sum of the weights of the contributions with outcome `k`. -/
def weightOf (l : List (GuessResult × Int)) (k : GuessResult) : Int :=
  ((l.filter (fun p => decide (p.1 = k))).map Prod.snd).sum

/-- Number of contributions with outcome `k`. -/
def countOf (l : List (GuessResult × Int)) (k : GuessResult) : Nat :=
  (l.filter (fun p => decide (p.1 = k))).length

/-- The candidates of the partition `o` of `guess`: the entries of `possibleWords` other than
the guess on which `ComputeResult(guess, ·)` is `o`. -/
def heuristicSolver.partition (h : heuristicSolver) (guess : GoString) (o : GuessResult) :
    List word :=
  h.possibleWords.filter (fun c => decide (c.word ≠ guess ∧ ComputeResult guess c.word = .ok o))

/-- The score as the specification words it: the sum over all outcomes `o` of `count(o)` times
`totalWeight(o)`. -/
def heuristicSolver.specScore (h : heuristicSolver) (guess : GoString) : Int :=
  ∑ o : GuessResult, ((h.partition guess o).length : Int) *
    ((h.partition guess o).map word.weight).sum

/-- The score as a sum over candidates: each entry `c` of `possibleWords` other than the guess
counts its weight times the number of entries other than the guess with the same outcome. -/
def heuristicSolver.specScoreByCandidate (h : heuristicSolver) (guess : GoString) : Int :=
  ((h.possibleWords.filter (fun c => decide (c.word ≠ guess))).map (fun c =>
    c.weight * (((h.possibleWords.filter (fun c' => decide (c'.word ≠ guess ∧
      ComputeResult guess c'.word = ComputeResult guess c.word))).length : Nat) : Int))).sum

/-- The score of `guess`: the value `calculateScoreForGuess(guess)` returns (0 stands in when
the call panics). -/
def heuristicSolver.score (h : heuristicSolver) (guess : GoString) : Int :=
  match h.calculateScoreForGuess guess with
  | .ok s => s
  | .error _ => 0

/-- A corpus of `n` copies of the entry `a` followed by `n` copies of the entry `b`. -/
def twoWordCorpus (n : Nat) (a b : word) : List word :=
  List.replicate n a ++ List.replicate n b

/-- The 3-byte string "app". -/
def app : GoString := [97, 112, 112]

/-- The outcome with all five tags NotPresent. -/
def allNotPresent : GuessResult :=
  Mathlib.Vector.replicate 5 .NotPresent

/-- A call that changes the solver: `AddResult(guess, result)` or `Reset()`. -/
inductive Call
  | AddResult (guess : GoString) (result : GuessResult)
  | Reset

/-- The solver after one call. -/
def applyCall (h : heuristicSolver) : Call → Except Failure heuristicSolver
  | .AddResult guess result => h.AddResult guess result
  | .Reset => .ok h.Reset

/-- The solver after a sequence of calls, in order; a panic ends the sequence. -/
def applyCalls (h : heuristicSolver) (calls : List Call) : Except Failure heuristicSolver :=
  runLoop applyCall calls h

/-- The guesses of the `AddResult` calls of a sequence are all 5 ASCII characters long. -/
def CallsWellFormed (calls : List Call) : Prop :=
  ∀ c ∈ calls, ∀ g r, c = .AddResult g r → IsAscii 5 g

/-- A session on the small corpus: feedback for "apple" against "ample", a reset, then feedback
for "apple" against "apric". -/
def sampleCalls : List Call :=
  [.AddResult apple ⟨[.Correct, .NotPresent, .Correct, .Correct, .Correct], rfl⟩,
   .Reset,
   .AddResult apple ⟨[.Correct, .Correct, .NotPresent, .NotPresent, .NotPresent], rfl⟩]

/-! ## `wordle.ParseResult` -/

/-- The rune a `range` loop decodes at the head of `s`: an ASCII byte is itself, a well-formed
multi-byte encoding is its code point, anything else is `utf8.RuneError` (`0xFFFD`). -/
def decodeRune : GoString → Nat
  | [] => 0xFFFD
  | b0 :: rest =>
    match runeWidth (b0 :: rest), rest with
    | 2, b1 :: _ => (b0.val % 32) * 64 + b1.val % 64
    | 3, b1 :: b2 :: _ => (b0.val % 16) * 4096 + (b1.val % 64) * 64 + b2.val % 64
    | 4, b1 :: b2 :: b3 :: _ =>
      (b0.val % 8) * 262144 + (b1.val % 64) * 4096 + (b2.val % 64) * 64 + b3.val % 64
    | _, _ => if b0.val < 0x80 then b0.val else 0xFFFD

/-- The pairs `(i, r)` of `for i, r := range s` from offset `i` on, `s` being what is left of
the string there. One unit of `fuel` per iteration; the length of `s` is enough. -/
def runesFrom : Nat → Nat → GoString → List (Nat × Nat)
  | 0, _, _ => []
  | _ + 1, _, [] => []
  | fuel + 1, i, b :: rest =>
    (i, decodeRune (b :: rest)) ::
      runesFrom fuel (i + runeWidth (b :: rest)) ((b :: rest).drop (runeWidth (b :: rest)))

/-- The pairs `(i, r)` taken by `for i, r := range s`. -/
def rangeRunes (s : GoString) : List (Nat × Nat) :=
  runesFrom s.length 0 s

/-- Body of the loop of `ParseResult` at offset `ir.1` with rune `ir.2`; the state is
`parsedResult`. The runes `'C'`, `'P'`, `'N'` are 67, 80, 78. -/
def parseStep (parsedResult : GuessResult) (ir : Nat × Nat) : Except Failure GuessResult :=
  if h : ir.1 < 5 then
    if ir.2 = 67 then .ok (parsedResult.set ⟨ir.1, h⟩ .Correct)
    else if ir.2 = 80 then .ok (parsedResult.set ⟨ir.1, h⟩ .Present)
    else if ir.2 = 78 then .ok (parsedResult.set ⟨ir.1, h⟩ .NotPresent)
    else .error .invalidCharacter
  else
    if ir.2 = 67 ∨ ir.2 = 80 ∨ ir.2 = 78 then .error .indexOutOfRange
    else .error .invalidCharacter

/-- The function `ParseResult(result)` of `wordle.go`. -/
def ParseResult (result : GoString) : Except Failure GuessResult :=
  if result.length ≠ 5 then .error .invalidResult
  else runLoop parseStep (rangeRunes result) (Mathlib.Vector.replicate 5 .NotPresent)

/-- The string `CorrectResultStr`, "CCCCC". -/
def CorrectResultStr : GoString := [67, 67, 67, 67, 67]

/-- The letter that stands for a tag in the printable form of an outcome. -/
def tagChar : PositionResult → Fin 256
  | .Correct => 67
  | .Present => 80
  | .NotPresent => 78

/-- The printable form of an outcome, as the specification words it: the 5-character string
with `C` for Correct, `P` for Present and `N` for NotPresent at each position. -/
def printResult (o : GuessResult) : GoString :=
  o.toList.map tagChar

/-- The tag a letter of a feedback string stands for. -/
def charTag (b : Fin 256) : PositionResult :=
  if b = 67 then .Correct else if b = 80 then .Present else .NotPresent

/-- The byte is one of the letters `C`, `P`, `N`. -/
def IsTagChar (b : Fin 256) : Prop :=
  b = 67 ∨ b = 80 ∨ b = 78

/-- The outcome with all five tags Correct. -/
def allCorrect : GuessResult :=
  Mathlib.Vector.replicate 5 .Correct

/-- The feedback string "CCPNN". -/
def ccpnn : GoString := [67, 67, 80, 78, 78]
/-- The feedback string "CCP". -/
def ccp : GoString := [67, 67, 80]
/-- The feedback string "CCPXN". -/
def ccpxn : GoString := [67, 67, 80, 88, 78]

/-! ## Map iteration order

Go visits the entries of a map in an unspecified order. `order` stands for that order: it
rearranges the list of entries of `partitionWeights` before the summing loop runs. -/

/-- The method `calculateScoreForGuess` with the summing loop visiting the entries in the order
`order`. -/
def heuristicSolver.calculateScoreForGuessIn (order : PartitionMap → PartitionMap)
    (h : heuristicSolver) (guess : GoString) : Except Failure Int :=
  match runLoop (scoreStep guess) h.possibleWords ([], []) with
  | .error e => .error e
  | .ok (partitionWeights, partitionCounts) =>
    .ok (sumPartitions partitionCounts (order partitionWeights))

/-- Body of the scoring loop of `NextGuess`, scores computed with the iteration order `order`. -/
def guessStepIn (order : PartitionMap → PartitionMap) (h : heuristicSolver)
    (st : GoString × Int) (w : word) : Except Failure (GoString × Int) :=
  match h.calculateScoreForGuessIn order w.word with
  | .error e => .error e
  | .ok score => if score < st.2 then .ok (w.word, score) else .ok st

/-- The method `NextGuess`, scores computed with the iteration order `order`. -/
def heuristicSolver.NextGuessIn (order : PartitionMap → PartitionMap) (h : heuristicSolver)
    (cache : Option GoString) : Except Failure (GoString × Option GoString) :=
  match h.possibleWords with
  | [] => .error .noPossibleWordsLeft
  | [w] => .ok (w.word, cache)
  | _ :: _ :: _ =>
    match (if h.possibleWords.length = h.allWords.length then cache else none) with
    | some cachedGuess => .ok (cachedGuess, cache)
    | none =>
      match runLoop (guessStepIn order h) h.allWords ([], initialMinScore) with
      | .error e => .error e
      | .ok (guess, _) =>
        .ok (guess, if h.possibleWords.length = h.allWords.length then some guess else cache)

/-- Every rearrangement `order` makes is a permutation of the entries. -/
def IsIterationOrder (order : PartitionMap → PartitionMap) : Prop :=
  ∀ m, (order m).Perm m

/-! ## The solving loop -/

/-- The loop of the tests and of `main`: `guess := NextGuess()`; stop if the guess is the
secret; otherwise `AddResult(guess, ComputeResult(guess, secret))` and repeat. `fuel` bounds the
number of calls to `NextGuess`. The result is `some guesses`, the guesses made in order, when
the loop stops within that bound, and `none` when it does not. -/
def solveLoop (secret : GoString) :
    Nat → heuristicSolver → Option GoString → Except Failure (Option (List GoString))
  | 0, _, _ => .ok none
  | fuel + 1, h, cache =>
    match h.NextGuess cache with
    | .error e => .error e
    | .ok (guess, cache') =>
      if guess = secret then .ok (some [guess])
      else
        match ComputeResult guess secret with
        | .error e => .error e
        | .ok result =>
          match h.AddResult guess result with
          | .error e => .error e
          | .ok h' =>
            match solveLoop secret fuel h' cache' with
            | .error e => .error e
            | .ok none => .ok none
            | .ok (some guesses) => .ok (some (guess :: guesses))

/-- The words apple, ample, apric, allee, peach. -/
def smallWords : List GoString :=
  [apple, ample, apric, allee, peach]

/-- The corpus apple, ample, apric, allee, peach with the same weight `w` each. -/
def uniformCorpus (w : Int) : List word :=
  smallWords.map (fun s => ⟨s, w⟩)

/-- For candidates `ws` of equal weight, the score of `guess` divided by that weight: the sum
over the candidates other than the guess of the number of candidates other than the guess with
the same outcome. -/
def sameOutcomeTotal (ws : List GoString) (guess : GoString) : Int :=
  ((ws.filter (fun s => decide (s ≠ guess))).map (fun s =>
    (((ws.filter (fun s' => decide (s' ≠ guess ∧
      ComputeResult guess s' = ComputeResult guess s))).length : Nat) : Int))).sum

/-- The states the solving loop passes through on a corpus of 5-ASCII-character words with
positive weights: `possibleWords` is a sub-list of `allWords`, `allWords` has fewer than `2^63`
entries (it is a Go slice), and every entry of `allWords` scores below the initial
`minScore`. -/
def LoopInvariant (h : heuristicSolver) : Prop :=
  WellFormed h ∧ h.possibleWords.Sublist h.allWords ∧ (∀ w ∈ h.allWords, 0 < w.weight) ∧
    h.allWords.length < 2 ^ 63 ∧ ∀ w ∈ h.allWords, h.score w.word < initialMinScore

/-- The string "abcdé": 5 characters, 6 bytes (`é` is the two bytes `C3 A9`). -/
def abcdEacute : GoString := [97, 98, 99, 100, 0xC3, 0xA9]
/-- The string "abcdè": 5 characters, 6 bytes (`è` is the two bytes `C3 A8`). -/
def abcdEgrave : GoString := [97, 98, 99, 100, 0xC3, 0xA8]
/-- The 5-byte string "èabc". -/
def egraveAbc : GoString := [0xC3, 0xA8, 97, 98, 99]

/-- The corpus "abcdé", "abcdè" with weight 1 each. -/
def accentCorpus : List word :=
  [⟨abcdEacute, 1⟩, ⟨abcdEgrave, 1⟩]

/-- The corpus "éabc", "èabc" with weight 1 each. -/
def accentCorpus5 : List word :=
  [⟨eacuteAbc, 1⟩, ⟨egraveAbc, 1⟩]

/-- The cache is in step with the state: when `NextGuess` would read it, it is absent or holds
the guess of the scoring loop. -/
def CacheInStep (h : heuristicSolver) (cache : Option GoString) : Prop :=
  ∀ c, cache = some c → h.possibleWords.length = h.allWords.length →
    ∃ sc, runLoop (guessStep h) h.allWords ([], initialMinScore) = .ok (c, sc)

/-! ## Loops -/

theorem runLoop_append {σ ι : Type} (step : σ → ι → Except Failure σ)
    (l₁ l₂ : List ι) (st : σ) :
    runLoop step (l₁ ++ l₂) st =
      match runLoop step l₁ st with
      | .ok st' => runLoop step l₂ st'
      | .error e => .error e := by
  induction l₁ generalizing st with
  | nil => rfl
  | cons i l ih =>
    simp only [List.cons_append, runLoop]
    cases step st i with
    | ok st' => exact ih st'
    | error e => rfl

theorem runLoop_range_succ {σ : Type} (step : σ → Nat → Except Failure σ)
    (n : Nat) (st st' : σ) (h : runLoop step (List.range n) st = .ok st') :
    runLoop step (List.range (n + 1)) st = step st' n := by
  rw [List.range_succ, runLoop_append, h]
  simp only [runLoop]
  cases step st' n <;> rfl

theorem countUpTo_zero (p : Nat → Bool) : countUpTo p 0 = 0 := rfl

theorem countUpTo_succ (p : Nat → Bool) (n : Nat) :
    countUpTo p (n + 1) = countUpTo p n + (if p n then 1 else 0) := by
  unfold countUpTo
  rw [List.range_succ, List.countP_append]
  simp [List.countP_cons]

theorem rangeFrom_ascii (s : GoString) (hs : ∀ b ∈ s, b.val < 0x80) (fuel i : Nat)
    (hf : s.length ≤ fuel) : rangeFrom fuel i s = List.range' i s.length := by
  induction s generalizing fuel i with
  | nil => cases fuel <;> rfl
  | cons b rest ih =>
    cases fuel with
    | zero => simp at hf
    | succ fuel =>
      have hb : b.val < 0x80 := hs b (List.mem_cons_self _ _)
      have hw : runeWidth (b :: rest) = 1 := by
        simp only [runeWidth]
        rw [if_pos (by omega)]
      simp only [rangeFrom, hw, List.drop_succ_cons, List.drop_zero, List.length_cons,
        List.range'_succ]
      rw [ih (fun c hc => hs c (List.mem_cons_of_mem _ hc)) fuel (i + 1)
        (by simpa using hf)]

theorem rangeIndices_ascii (n : Nat) (s : GoString) (hs : IsAscii n s) :
    rangeIndices s = List.range n := by
  unfold rangeIndices
  rw [rangeFrom_ascii s hs.2 _ _ (le_refl _), hs.1, List.range_eq_range']


theorem set_ofFn (f : Fin 5 → PositionResult) (i : Fin 5) (a : PositionResult) :
    (Mathlib.Vector.ofFn f).set i a = Mathlib.Vector.ofFn (Function.update f i a) := by
  apply Mathlib.Vector.ext
  intro j
  rw [Mathlib.Vector.get_set_eq_if, Mathlib.Vector.get_ofFn, Mathlib.Vector.get_ofFn,
    Function.update_apply]
  by_cases hij : i = j
  · rw [if_pos hij, if_pos hij.symm]
  · rw [if_neg hij, if_neg (fun h => hij h.symm)]

theorem replicate_eq_ofFn (a : PositionResult) :
    (Mathlib.Vector.replicate 5 a : GuessResult) = Mathlib.Vector.ofFn (fun _ => a) := by
  apply Mathlib.Vector.ext
  intro j
  rw [Mathlib.Vector.get_replicate, Mathlib.Vector.get_ofFn]

theorem firstPass_range (g s : GoString) (hg : g.length = 5) (hs : s.length = 5)
    (n : Nat) (hn : n ≤ 5) :
    runLoop (firstPassStep g s) (List.range n)
        (Mathlib.Vector.replicate 5 .NotPresent, fun _ => 0) =
      .ok (afterFirst g s n) := by
  induction n with
  | zero =>
    simp only [List.range_zero, runLoop, afterFirst, secretPool, countUpTo_zero,
      replicate_eq_ofFn]
    congr 2
  | succ n ih =>
    have hn5 : n < 5 := by omega
    rw [runLoop_range_succ _ _ _ _ (ih (by omega))]
    have hgn : g[n]? = some (g[n]) := List.getElem?_eq_getElem (by omega)
    have hsn : s[n]? = some (s[n]) := List.getElem?_eq_getElem (by omega)
    simp only [firstPassStep, hgn, hsn]
    by_cases heq : g[n] = s[n]
    · rw [if_pos heq, dif_pos hn5]
      refine congrArg Except.ok (Prod.ext ?_ ?_) <;> simp only [afterFirst]
      · rw [set_ofFn]
        congr 1
        funext i
        by_cases hi : i = ⟨n, hn5⟩
        · subst hi
          simp [Function.update_same, hgn, hsn, heq]
        · have hin : i.val ≠ n := fun h => hi (Fin.ext h)
          rw [Function.update_noteq hi]
          by_cases hlt : i.val < n
          · simp [hlt, Nat.lt_succ_of_lt hlt]
          · have : ¬ i.val < n + 1 := by omega
            simp [hlt, this]
      · funext x
        simp [secretPool, countUpTo_succ, hgn, hsn, heq]
    · rw [if_neg heq]
      refine congrArg Except.ok (Prod.ext ?_ ?_) <;> simp only [afterFirst]
      · congr 1
        funext i
        by_cases hin : i.val = n
        · simp [hin, hgn, hsn, heq]
        · by_cases hlt : i.val < n
          · simp [hlt, Nat.lt_succ_of_lt hlt]
          · have : ¬ i.val < n + 1 := by omega
            simp [hlt, this]
      · funext x
        by_cases hx : x = s[n]
        · subst hx
          simp [secretPool, countUpTo_succ, hgn, hsn, heq]
        · rw [Function.update_noteq hx]
          have hx' : ¬ s[n] = x := fun h => hx h.symm
          simp [secretPool, countUpTo_succ, hgn, hsn, hx']

theorem afterSecond_zero (g s : GoString) : afterSecond g s 0 = afterFirst g s 5 := by
  refine Prod.ext ?_ ?_ <;> simp only [afterSecond, afterFirst]
  · congr 1
    funext i
    have hi : i.val < 5 := i.isLt
    simp only [tagAt, hi, true_and, Nat.not_lt_zero, false_and, if_false]
    split_ifs
    · rfl
    · cases g[i.val]? <;> rfl
  · funext x
    simp only [guessDemand, countUpTo_zero]
    have : (0 : Int) ≤ (secretPool g s x 5 : Int) := Int.ofNat_nonneg _
    omega

theorem tagAt_succ_of_ne (g s : GoString) (m k : Nat) (hk : k ≠ m) :
    tagAt g s (m + 1) k = tagAt g s m k := by
  have : k < m + 1 ↔ k < m := by omega
  simp only [tagAt, this]

theorem pool_take (C D D' : Nat) (h : D' = D + 1) (hlt : D < C) :
    (C : Int) - min (C : Int) (D : Int) - 1 = (C : Int) - min (C : Int) (D' : Int) := by
  omega

theorem pool_keep (C D D' : Nat) (h : D' = D + 1) (hge : C ≤ D) :
    (C : Int) - min (C : Int) (D : Int) = (C : Int) - min (C : Int) (D' : Int) := by
  omega

theorem secondPass_range (g s : GoString) (hg : g.length = 5) (hs : s.length = 5)
    (m : Nat) (hm : m ≤ 5) :
    runLoop (secondPassStep g) (List.range m) (afterFirst g s 5) = .ok (afterSecond g s m) := by
  induction m with
  | zero => simp only [List.range_zero, runLoop, afterSecond_zero]
  | succ m ih =>
    have hm5 : m < 5 := by omega
    rw [runLoop_range_succ _ _ _ _ (ih (by omega))]
    have hgm : g[m]? = some (g[m]) := List.getElem?_eq_getElem (by omega)
    have hsm : s[m]? = some (s[m]) := List.getElem?_eq_getElem (by omega)
    have hget : (afterSecond g s m).1.get ⟨m, hm5⟩ = tagAt g s m m := by
      simp only [afterSecond, Mathlib.Vector.get_ofFn]
    simp only [secondPassStep, dif_pos hm5]
    by_cases heq : g[m] = s[m]
    · have htag : (afterSecond g s m).1.get ⟨m, hm5⟩ = .Correct := by
        rw [hget]
        simp [tagAt, hgm, hsm, heq]
      rw [if_pos htag]
      refine congrArg Except.ok (Prod.ext ?_ ?_) <;> simp only [afterSecond]
      · congr 1
        funext i
        by_cases hi : i.val = m
        · simp [tagAt, hi, hgm, hsm, heq]
        · rw [tagAt_succ_of_ne g s m i.val hi]
      · funext x
        simp [guessDemand, countUpTo_succ, hgm, hsm, heq]
    · have htag : ¬ (afterSecond g s m).1.get ⟨m, hm5⟩ = .Correct := by
        rw [hget]
        simp only [tagAt, hgm, hsm, Option.some.injEq, heq, if_false]
        split_ifs <;> simp
      rw [if_neg htag]
      simp only [hgm]
      have hdem : guessDemand g s (g[m]) (m + 1) = guessDemand g s (g[m]) m + 1 := by
        simp [guessDemand, countUpTo_succ, hgm, hsm, heq]
      have hdem' : ∀ x, x ≠ g[m] → guessDemand g s x (m + 1) = guessDemand g s x m := by
        intro x hx
        have hx' : ¬ g[m] = x := fun h => hx h.symm
        simp [guessDemand, countUpTo_succ, hgm, hx']
      by_cases hpos : (afterSecond g s m).2 (g[m]) > 0
      · rw [if_pos hpos]
        have hlt : guessDemand g s (g[m]) m < secretPool g s (g[m]) 5 := by
          simp only [afterSecond] at hpos
          omega
        refine congrArg Except.ok (Prod.ext ?_ ?_) <;> simp only [afterSecond]
        · rw [set_ofFn]
          congr 1
          funext i
          by_cases hi : i = ⟨m, hm5⟩
          · subst hi
            simp [tagAt, hgm, hsm, heq, hlt]
          · have hin : i.val ≠ m := fun h => hi (Fin.ext h)
            rw [Function.update_noteq hi, tagAt_succ_of_ne g s m i.val hin]
        · funext x
          simp only [Function.update_apply]
          by_cases hx : x = g[m]
          · rw [if_pos hx, hx]
            exact pool_take _ _ _ hdem hlt
          · rw [if_neg hx, hdem' x hx]
      · rw [if_neg hpos]
        have hge : secretPool g s (g[m]) 5 ≤ guessDemand g s (g[m]) m := by
          simp only [afterSecond] at hpos
          omega
        refine congrArg Except.ok (Prod.ext ?_ ?_) <;> simp only [afterSecond]
        · rw [set_ofFn]
          congr 1
          funext i
          by_cases hi : i = ⟨m, hm5⟩
          · subst hi
            have : ¬ guessDemand g s (g[m]) m < secretPool g s (g[m]) 5 := by omega
            simp [tagAt, hgm, hsm, heq, this]
          · have hin : i.val ≠ m := fun h => hi (Fin.ext h)
            rw [Function.update_noteq hi, tagAt_succ_of_ne g s m i.val hin]
        · funext x
          by_cases hx : x = g[m]
          · rw [hx]
            exact pool_keep _ _ _ hdem hge
          · rw [hdem' x hx]

/-- On two strings of 5 ASCII characters `ComputeResult` returns, and its tag at each offset
is `tagAt`. -/
theorem ComputeResult_ascii (g s : GoString) (hg : IsAscii 5 g) (hs : IsAscii 5 s) :
    ComputeResult g s = .ok (Mathlib.Vector.ofFn (fun i => tagAt g s 5 i.val)) := by
  unfold ComputeResult
  rw [rangeIndices_ascii 5 g hg, firstPass_range g s hg.1 hs.1 5 (le_refl _)]
  simp only
  rw [secondPass_range g s hg.1 hs.1 5 (le_refl _)]
  rfl

/-! ## Counting lemmas -/

theorem countUpTo_add (p q r : Nat → Bool) (n : Nat)
    (h : ∀ k, k < n → (if p k then 1 else 0) = (if q k then 1 else 0) + (if r k then 1 else 0)) :
    countUpTo p n = countUpTo q n + countUpTo r n := by
  induction n with
  | zero => rfl
  | succ n ih =>
    rw [countUpTo_succ, countUpTo_succ, countUpTo_succ, ih (fun k hk => h k (by omega)),
      h n (by omega)]
    omega

theorem countUpTo_congr (p q : Nat → Bool) (n : Nat) (h : ∀ k, k < n → p k = q k) :
    countUpTo p n = countUpTo q n := by
  induction n with
  | zero => rfl
  | succ n ih =>
    rw [countUpTo_succ, countUpTo_succ, ih (fun k hk => h k (by omega)), h n (by omega)]

theorem count_eq_countUpTo (l : GoString) (x : Fin 256) :
    l.count x = countUpTo (fun k => decide (l[k]? = some x)) l.length := by
  induction l using List.reverseRecOn with
  | nil => rfl
  | append_singleton l a ih =>
    rw [List.count_append, List.length_append, List.length_singleton, countUpTo_succ, ih]
    congr 1
    · apply countUpTo_congr
      intro k hk
      rw [List.getElem?_append_left hk]
    · have hlast : (l ++ [a])[l.length]? = some a := by
        rw [List.getElem?_append_right (le_refl _)]
        simp
      rw [hlast, List.count_singleton]
      by_cases hax : a = x
      · simp [hax]
      · simp [hax]

theorem card_filter_fin5 (P : Nat → Prop) [DecidablePred P]
    [inst : DecidablePred (fun i : Fin 5 => P i.val)] :
    (Finset.univ.filter (fun i : Fin 5 => P i.val)).card =
      countUpTo (fun k => decide (P k)) 5 := by
  rw [Finset.card_filter, Fin.sum_univ_five]
  simp only [countUpTo_succ, countUpTo_zero, Nat.zero_add, decide_eq_true_eq]
  have e3 : ((3 : Fin 5) : Nat) = 3 := rfl
  have e4 : ((4 : Fin 5) : Nat) = 4 := rfl
  simp only [Fin.val_zero, Fin.val_one, Fin.val_two, e3, e4]
  congr!

/-- Present tags go to the first `secretPool` non-matching occurrences of `x` in the guess. -/
theorem countUpTo_served (g s : GoString) (x : Fin 256) (C n : Nat) :
    countUpTo (fun k => decide (g[k]? = some x ∧ g[k]? ≠ s[k]? ∧ guessDemand g s x k < C)) n =
      min C (guessDemand g s x n) := by
  induction n with
  | zero => simp [countUpTo_zero, guessDemand]
  | succ n ih =>
    rw [countUpTo_succ, ih]
    by_cases h : g[n]? = some x ∧ g[n]? ≠ s[n]?
    · have hd : guessDemand g s x (n + 1) = guessDemand g s x n + 1 := by
        have hp : decide (g[n]? = some x ∧ g[n]? ≠ s[n]?) = true := decide_eq_true h
        simp only [guessDemand, countUpTo_succ, hp, if_true]
      rw [hd]
      by_cases hlt : guessDemand g s x n < C
      · have hp : decide (g[n]? = some x ∧ g[n]? ≠ s[n]? ∧ guessDemand g s x n < C) = true :=
          decide_eq_true ⟨h.1, h.2, hlt⟩
        rw [hp, if_pos rfl, Nat.min_def, Nat.min_def]
        split_ifs <;> omega
      · have hp : decide (g[n]? = some x ∧ g[n]? ≠ s[n]? ∧ guessDemand g s x n < C) = false :=
          decide_eq_false (fun h' => hlt h'.2.2)
        rw [hp, if_neg (by simp), Nat.min_def, Nat.min_def]
        split_ifs <;> omega
    · have hd : guessDemand g s x (n + 1) = guessDemand g s x n := by
        have hp : decide (g[n]? = some x ∧ g[n]? ≠ s[n]?) = false := decide_eq_false h
        simp only [guessDemand, countUpTo_succ, hp]
        simp
      rw [hd]
      have hp : decide (g[n]? = some x ∧ g[n]? ≠ s[n]? ∧ guessDemand g s x n < C) = false :=
        decide_eq_false (fun h' => h ⟨h'.1, h'.2.1⟩)
      rw [hp, if_neg (by simp)]
      rfl


theorem tagAt_of_eq (g s : GoString) (m k : Nat) (h : g[k]? = s[k]?) :
    tagAt g s m k = .Correct := by
  unfold tagAt
  rw [if_pos h]

theorem tagAt_of_ne (g s : GoString) (m k : Nat) (x : Fin 256) (h : ¬ g[k]? = s[k]?)
    (hx : g[k]? = some x) :
    tagAt g s m k =
      if k < m ∧ guessDemand g s x k < secretPool g s x 5 then .Present else .NotPresent := by
  unfold tagAt
  rw [if_neg h]
  cases hgk : g[k]? with
  | none => rw [hgk] at hx; cases hx
  | some y =>
    rw [hgk] at hx
    cases hx
    rfl

theorem tagAt_counted (g s : GoString) (x : Fin 256) (k : Nat) (hk : k < 5) :
    (if decide (g[k]? = some x ∧ (tagAt g s 5 k = .Correct ∨ tagAt g s 5 k = .Present))
      then 1 else 0) =
    (if decide (g[k]? = some x ∧ g[k]? = s[k]?) then 1 else 0) +
    (if decide (g[k]? = some x ∧ g[k]? ≠ s[k]? ∧
        guessDemand g s x k < secretPool g s x 5) then 1 else 0) := by
  by_cases hgx : g[k]? = some x
  · by_cases heq : g[k]? = s[k]?
    · have h1 : tagAt g s 5 k = .Correct := tagAt_of_eq g s 5 k heq
      have hA : g[k]? = some x ∧ (tagAt g s 5 k = .Correct ∨ tagAt g s 5 k = .Present) :=
        ⟨hgx, Or.inl h1⟩
      have hB : g[k]? = some x ∧ g[k]? = s[k]? := ⟨hgx, heq⟩
      have hC : ¬ (g[k]? = some x ∧ g[k]? ≠ s[k]? ∧
          guessDemand g s x k < secretPool g s x 5) := fun h => h.2.1 heq
      rw [decide_eq_true hA, decide_eq_true hB, decide_eq_false hC]
      rfl
    · have hB : ¬ (g[k]? = some x ∧ g[k]? = s[k]?) := fun h => heq h.2
      by_cases hlt : guessDemand g s x k < secretPool g s x 5
      · have h1 : tagAt g s 5 k = .Present := by
          rw [tagAt_of_ne g s 5 k x heq hgx, if_pos ⟨hk, hlt⟩]
        have hA : g[k]? = some x ∧ (tagAt g s 5 k = .Correct ∨ tagAt g s 5 k = .Present) :=
          ⟨hgx, Or.inr h1⟩
        have hC : g[k]? = some x ∧ g[k]? ≠ s[k]? ∧
            guessDemand g s x k < secretPool g s x 5 := ⟨hgx, heq, hlt⟩
        rw [decide_eq_true hA, decide_eq_false hB, decide_eq_true hC]
        rfl
      · have h1 : tagAt g s 5 k = .NotPresent := by
          rw [tagAt_of_ne g s 5 k x heq hgx, if_neg (fun h => hlt h.2)]
        have hA : ¬ (g[k]? = some x ∧
            (tagAt g s 5 k = .Correct ∨ tagAt g s 5 k = .Present)) := by
          rw [h1]
          intro h
          rcases h.2 with h' | h' <;> cases h'
        have hC : ¬ (g[k]? = some x ∧ g[k]? ≠ s[k]? ∧
            guessDemand g s x k < secretPool g s x 5) := fun h => hlt h.2.2
        rw [decide_eq_false hA, decide_eq_false hB, decide_eq_false hC]
        rfl
  · have hA : ¬ (g[k]? = some x ∧
        (tagAt g s 5 k = .Correct ∨ tagAt g s 5 k = .Present)) := fun h => hgx h.1
    have hB : ¬ (g[k]? = some x ∧ g[k]? = s[k]?) := fun h => hgx h.1
    have hC : ¬ (g[k]? = some x ∧ g[k]? ≠ s[k]? ∧
        guessDemand g s x k < secretPool g s x 5) := fun h => hgx h.1
    rw [decide_eq_false hA, decide_eq_false hB, decide_eq_false hC]
    rfl

theorem count_guess_split (g s : GoString) (hg : g.length = 5) (x : Fin 256) :
    g.count x = countUpTo (fun k => decide (g[k]? = some x ∧ g[k]? = s[k]?)) 5 +
      guessDemand g s x 5 := by
  rw [count_eq_countUpTo, hg, guessDemand]
  apply countUpTo_add
  intro k _
  by_cases hgx : g[k]? = some x
  · by_cases heq : g[k]? = s[k]?
    · have hB : g[k]? = some x ∧ g[k]? = s[k]? := ⟨hgx, heq⟩
      have hC : ¬ (g[k]? = some x ∧ g[k]? ≠ s[k]?) := fun h => h.2 heq
      rw [decide_eq_true hgx, decide_eq_true hB, decide_eq_false hC]
      rfl
    · have hB : ¬ (g[k]? = some x ∧ g[k]? = s[k]?) := fun h => heq h.2
      have hC : g[k]? = some x ∧ g[k]? ≠ s[k]? := ⟨hgx, heq⟩
      rw [decide_eq_true hgx, decide_eq_false hB, decide_eq_true hC]
      rfl
  · have hB : ¬ (g[k]? = some x ∧ g[k]? = s[k]?) := fun h => hgx h.1
    have hC : ¬ (g[k]? = some x ∧ g[k]? ≠ s[k]?) := fun h => hgx h.1
    rw [decide_eq_false hgx, decide_eq_false hB, decide_eq_false hC]
    rfl

theorem count_secret_split (g s : GoString) (hs : s.length = 5) (x : Fin 256) :
    s.count x = countUpTo (fun k => decide (g[k]? = some x ∧ g[k]? = s[k]?)) 5 +
      secretPool g s x 5 := by
  rw [count_eq_countUpTo, hs, secretPool]
  apply countUpTo_add
  intro k _
  by_cases hsx : s[k]? = some x
  · by_cases heq : g[k]? = s[k]?
    · have hB : g[k]? = some x ∧ g[k]? = s[k]? := ⟨heq.trans hsx, heq⟩
      have hC : ¬ (s[k]? = some x ∧ g[k]? ≠ s[k]?) := fun h => h.2 heq
      rw [decide_eq_true hsx, decide_eq_true hB, decide_eq_false hC]
      rfl
    · have hB : ¬ (g[k]? = some x ∧ g[k]? = s[k]?) := fun h => heq h.2
      have hC : s[k]? = some x ∧ g[k]? ≠ s[k]? := ⟨hsx, heq⟩
      rw [decide_eq_true hsx, decide_eq_false hB, decide_eq_true hC]
      rfl
  · have hB : ¬ (g[k]? = some x ∧ g[k]? = s[k]?) := fun h => hsx (h.2.symm.trans h.1)
    have hC : ¬ (s[k]? = some x ∧ g[k]? ≠ s[k]?) := fun h => hsx h.1
    rw [decide_eq_false hsx, decide_eq_false hB, decide_eq_false hC]
    rfl

/-! ## Claims about `ComputeResult` -/

/-- C1. For a guess and a secret of 5 ASCII characters each and every byte `x`, the number of
positions of the guess holding `x` that `ComputeResult` tags Correct or Present is the minimum of
the numbers of occurrences of `x` in the guess and in the secret. -/
theorem ComputeResult_shared_letters (g s : GoString) (hg : IsAscii 5 g) (hs : IsAscii 5 s)
    (x : Fin 256) :
    ∃ r, ComputeResult g s = .ok r ∧
      (Finset.univ.filter (fun i : Fin 5 =>
        g[i.val]? = some x ∧ (r.get i = .Correct ∨ r.get i = .Present))).card =
        min (g.count x) (s.count x) := by
  refine ⟨_, ComputeResult_ascii g s hg hs, ?_⟩
  simp only [Mathlib.Vector.get_ofFn]
  refine (card_filter_fin5 (fun k => g[k]? = some x ∧
    (tagAt g s 5 k = .Correct ∨ tagAt g s 5 k = .Present))).trans ?_
  rw [countUpTo_add _ _ _ 5 (fun k hk => tagAt_counted g s x k hk), countUpTo_served,
    count_guess_split g s hg.1 x, count_secret_split g s hs.1 x,
    Nat.min_def, Nat.min_def]
  split_ifs <;> omega


/-- The six rows of `TestComputeResult`. -/
theorem TestComputeResult_rows :
    computeTags apple apple = some [.Correct, .Correct, .Correct, .Correct, .Correct] ∧
    computeTags apple ample = some [.Correct, .NotPresent, .Correct, .Correct, .Correct] ∧
    computeTags apple zzzzz =
      some [.NotPresent, .NotPresent, .NotPresent, .NotPresent, .NotPresent] ∧
    computeTags apple peach = some [.Present, .Present, .NotPresent, .NotPresent, .Present] ∧
    computeTags apple apric = some [.Correct, .Correct, .NotPresent, .NotPresent, .NotPresent] ∧
    computeTags apple allee = some [.Correct, .NotPresent, .NotPresent, .Present, .Correct] := by
  decide

/-- Witness of C1 at guess "apple", secret "apric" and the letter `p`. -/
theorem ComputeResult_shared_letters_witness :
    IsAscii 5 apple ∧ IsAscii 5 apric ∧
    ∃ r, ComputeResult apple apric = .ok r ∧
      (Finset.univ.filter (fun i : Fin 5 =>
        apple[i.val]? = some 112 ∧ (r.get i = .Correct ∨ r.get i = .Present))).card =
        min (apple.count 112) (apric.count 112) :=
  ⟨by decide, by decide, ComputeResult_shared_letters apple apric (by decide) (by decide) 112⟩

/-- C2, as amended. For a guess and a secret of 5 ASCII characters each and a position `i`
where they differ, `x` being the byte of the guess there: the tag at `i` is Present exactly when
the number of earlier positions `j < i` with `guess[j] = x` and `guess[j] ≠ secret[j]` is less
than the number of positions `k` with `secret[k] = x` and `guess[k] ≠ secret[k]`, and it is
NotPresent otherwise. -/
theorem ComputeResult_present_iff (g s : GoString) (hg : IsAscii 5 g) (hs : IsAscii 5 s)
    (i : Fin 5) (x : Fin 256) (hx : g[i.val]? = some x) (hne : g[i.val]? ≠ s[i.val]?) :
    ∃ r, ComputeResult g s = .ok r ∧
      (r.get i = .Present ↔
        (List.range i.val).countP (fun j => decide (g[j]? = some x ∧ g[j]? ≠ s[j]?)) <
          (List.range 5).countP (fun k => decide (s[k]? = some x ∧ g[k]? ≠ s[k]?))) ∧
      (r.get i = .Present ∨ r.get i = .NotPresent) := by
  refine ⟨_, ComputeResult_ascii g s hg hs, ?_⟩
  rw [Mathlib.Vector.get_ofFn]
  have htag := tagAt_of_ne g s 5 i.val x hne hx
  simp only [guessDemand, secretPool, countUpTo] at htag
  rw [htag]
  split_ifs with h
  · exact ⟨Iff.intro (fun _ => h.2) (fun _ => rfl), Or.inl rfl⟩
  · exact ⟨Iff.intro (fun h' => by cases h') (fun h' => absurd ⟨i.isLt, h'⟩ h), Or.inr rfl⟩

/-- Witness of C2 at guess "apple", secret "peach", position 1. -/
theorem ComputeResult_present_iff_witness :
    IsAscii 5 apple ∧ IsAscii 5 peach ∧ apple[1]? = some 112 ∧ apple[1]? ≠ peach[1]? ∧
    ∃ r, ComputeResult apple peach = .ok r ∧
      (r.get 1 = .Present ↔
        (List.range 1).countP (fun j => decide (apple[j]? = some 112 ∧ apple[j]? ≠ peach[j]?)) <
          (List.range 5).countP
            (fun k => decide (peach[k]? = some 112 ∧ apple[k]? ≠ peach[k]?))) ∧
      (r.get 1 = .Present ∨ r.get 1 = .NotPresent) :=
  ⟨by decide, by decide, by decide, by decide,
    ComputeResult_present_iff apple peach (by decide) (by decide) 1 112 (by decide) (by decide)⟩

/-- C2 fails on 5-byte strings that are not ASCII: for guess "éabc" and secret "aébc" the bytes
at offset 1 differ, no earlier offset of the guess holds the byte `A9`, the secret holds it once
outside exact matches, and yet the tag at offset 1 is NotPresent (the `range` loop never visits
offset 1). Counting characters instead of bytes does not help: for the 5-character guess
"éabcd" against "abcde" the call panics. -/
theorem ComputeResult_present_iff_counterexample :
    eacuteAbc.length = 5 ∧ aEacuteBc.length = 5 ∧
    eacuteAbc[1]? = some 0xA9 ∧ eacuteAbc[1]? ≠ aEacuteBc[1]? ∧
    (List.range 1).countP
        (fun j => decide (eacuteAbc[j]? = some 0xA9 ∧ eacuteAbc[j]? ≠ aEacuteBc[j]?)) <
      (List.range 5).countP
        (fun k => decide (aEacuteBc[k]? = some 0xA9 ∧ eacuteAbc[k]? ≠ aEacuteBc[k]?)) ∧
    computeTags eacuteAbc aEacuteBc =
      some [.NotPresent, .NotPresent, .Present, .Correct, .Correct] ∧
    (rangeIndices eacuteAbcd).length = 5 ∧
    ComputeResult eacuteAbcd abcde = .error .indexOutOfRange := by
  decide

/-- C3, as amended. For a guess and a secret of 5 ASCII characters each, the tag at position `i`
is Correct if and only if the two strings hold the same byte at `i`. -/
theorem ComputeResult_correct_iff (g s : GoString) (hg : IsAscii 5 g) (hs : IsAscii 5 s) :
    ∃ r, ComputeResult g s = .ok r ∧
      ∀ i : Fin 5, r.get i = .Correct ↔ g[i.val]? = s[i.val]? := by
  refine ⟨_, ComputeResult_ascii g s hg hs, fun i => ?_⟩
  rw [Mathlib.Vector.get_ofFn]
  refine ⟨fun h => ?_, tagAt_of_eq g s 5 i.val⟩
  by_contra hne
  have hlen : i.val < g.length := by rw [hg.1]; exact i.isLt
  rw [tagAt_of_ne g s 5 i.val (g[i.val]) hne (List.getElem?_eq_getElem hlen)] at h
  split_ifs at h

/-- Witness of C3 at guess "apple", secret "ample". -/
theorem ComputeResult_correct_iff_witness :
    IsAscii 5 apple ∧ IsAscii 5 ample ∧
    ∃ r, ComputeResult apple ample = .ok r ∧
      ∀ i : Fin 5, r.get i = .Correct ↔ apple[i.val]? = ample[i.val]? :=
  ⟨by decide, by decide, ComputeResult_correct_iff apple ample (by decide) (by decide)⟩

/-- C3 fails on 5-byte strings that are not ASCII: "éabc" and "©abc" hold the same byte `A9` at
offset 1, and `ComputeResult` leaves the tag there NotPresent. Counting characters instead of
bytes does not help: on the 5-character string "éabcd" against itself the loop reaches offset 5
and the call panics. -/
theorem ComputeResult_correct_iff_counterexample :
    eacuteAbc.length = 5 ∧ copyrightAbc.length = 5 ∧ eacuteAbc[1]? = copyrightAbc[1]? ∧
    computeTags eacuteAbc copyrightAbc =
      some [.NotPresent, .NotPresent, .Correct, .Correct, .Correct] ∧
    (rangeIndices eacuteAbcd).length = 5 ∧
    computeTags eacuteAbcd eacuteAbcd = none := by
  decide

/-- C4 as stated fails: guess "allee" against secret "apple" does not give
[Correct, NotPresent, NotPresent, Present, Correct]. -/
theorem ComputeResult_allee_apple_counterexample :
    computeTags allee apple ≠
      some [.Correct, .NotPresent, .NotPresent, .Present, .Correct] := by
  decide

/-- C4, as amended. Guess "allee" against secret "apple" gives
[Correct, Present, NotPresent, NotPresent, Correct]; the outcome
[Correct, NotPresent, NotPresent, Present, Correct] is that of guess "apple" against secret
"allee", the row RepeatedLetters of `TestComputeResult`. -/
theorem ComputeResult_allee_apple :
    computeTags allee apple =
      some [.Correct, .Present, .NotPresent, .NotPresent, .Correct] ∧
    computeTags apple allee =
      some [.Correct, .NotPresent, .NotPresent, .Present, .Correct] := by
  decide

/-- C5, as amended. For every string `s` of 5 ASCII characters, `ComputeResult(s, s)` is the
all-Correct outcome. -/
theorem ComputeResult_self (s : GoString) (hs : IsAscii 5 s) :
    ComputeResult s s = .ok (Mathlib.Vector.replicate 5 .Correct) := by
  rw [ComputeResult_ascii s s hs hs, replicate_eq_ofFn]
  congr 2
  funext i
  exact tagAt_of_eq s s 5 i.val rfl

/-- Witness of C5 at "apple". -/
theorem ComputeResult_self_witness :
    IsAscii 5 apple ∧ ComputeResult apple apple = .ok (Mathlib.Vector.replicate 5 .Correct) :=
  ⟨by decide, ComputeResult_self apple (by decide)⟩

/-- C5 fails on a 5-byte string that is not ASCII: "abcé" against itself gets NotPresent at
offset 4, the second byte of `é`. Counting characters instead of bytes does not help: on the
5-character string "éabcd" against itself the call panics at offset 5. -/
theorem ComputeResult_self_counterexample :
    abcEacute.length = 5 ∧
    computeTags abcEacute abcEacute =
      some [.Correct, .Correct, .Correct, .Correct, .NotPresent] ∧
    (rangeIndices eacuteAbcd).length = 5 ∧
    ComputeResult eacuteAbcd eacuteAbcd = .error .indexOutOfRange := by
  decide



/-! ## `AddResult` -/

theorem outcome?_eq_some (g s : GoString) (r : GuessResult) :
    outcome? g s = some r ↔ ComputeResult g s = .ok r := by
  unfold outcome?
  cases ComputeResult g s with
  | ok r' => simp
  | error e => simp

theorem outcome?_ascii (g s : GoString) (hg : IsAscii 5 g) (hs : IsAscii 5 s) :
    ∃ r, outcome? g s = some r :=
  ⟨_, (outcome?_eq_some g s _).2 (ComputeResult_ascii g s hg hs)⟩

theorem runLoop_addResult (g : GoString) (o : GuessResult) (l acc : List word)
    (hok : ∀ c ∈ l, ∃ r, outcome? g c.word = some r) :
    runLoop (addResultStep g o) l acc =
      .ok (acc ++ l.filter (fun c => decide (outcome? g c.word = some o))) := by
  induction l generalizing acc with
  | nil => simp [runLoop]
  | cons c l ih =>
    obtain ⟨r, hr⟩ := hok c (List.mem_cons_self _ _)
    have hr' := (outcome?_eq_some g c.word r).1 hr
    have ih' := fun acc => ih acc (fun c' hc' => hok c' (List.mem_cons_of_mem _ hc'))
    simp only [runLoop, addResultStep, hr']
    by_cases hro : r = o
    · subst hro
      rw [if_pos rfl]
      simp only
      rw [ih', List.filter_cons_of_pos (by simpa using hr), List.append_assoc]
      rfl
    · rw [if_neg hro]
      simp only
      rw [ih', List.filter_cons_of_neg]
      rw [hr]
      simpa using hro

theorem runLoop_addResult_defined (g : GoString) (o : GuessResult) (l acc res : List word)
    (h : runLoop (addResultStep g o) l acc = .ok res) :
    ∀ c ∈ l, ∃ r, outcome? g c.word = some r := by
  induction l generalizing acc with
  | nil => intro c hc; cases hc
  | cons c l ih =>
    simp only [runLoop, addResultStep] at h
    cases hcr : ComputeResult g c.word with
    | error e => rw [hcr] at h; cases h
    | ok r =>
      rw [hcr] at h
      simp only [] at h
      intro c' hc'
      rcases List.mem_cons.1 hc' with rfl | hmem
      · exact ⟨r, (outcome?_eq_some g _ r).2 hcr⟩
      · by_cases hro : r = o
        · rw [if_pos hro] at h
          exact ih _ h c' hmem
        · rw [if_neg hro] at h
          exact ih _ h c' hmem

theorem AddResult_eq (h : heuristicSolver) (g : GoString) (o : GuessResult)
    (hok : ∀ c ∈ h.possibleWords, ∃ r, outcome? g c.word = some r) :
    h.AddResult g o = .ok
      { allWords := h.allWords
        possibleWords := h.possibleWords.filter (fun c => decide (outcome? g c.word = some o)) } := by
  unfold heuristicSolver.AddResult
  rw [runLoop_addResult g o _ _ hok]
  rfl

theorem AddResult_defined (h h' : heuristicSolver) (g : GoString) (o : GuessResult)
    (hadd : h.AddResult g o = .ok h') :
    ∀ c ∈ h.possibleWords, ∃ r, outcome? g c.word = some r := by
  unfold heuristicSolver.AddResult at hadd
  cases hl : runLoop (addResultStep g o) h.possibleWords [] with
  | error e => rw [hl] at hadd; cases hadd
  | ok res => exact runLoop_addResult_defined g o _ _ _ hl

/-- C6. Whenever `AddResult(g, o)` returns, it leaves `allWords` as it was and `possibleWords`
equal to the previous list restricted to the entries `c` with `ComputeResult(g, c.word) = o`
(same order, same weights); and it does return when `g` and the candidates are words of 5 ASCII
characters. -/
theorem AddResult_filter (h : heuristicSolver) (g : GoString) (o : GuessResult) :
    (∀ h', h.AddResult g o = .ok h' →
      h'.allWords = h.allWords ∧
      h'.possibleWords =
        h.possibleWords.filter (fun c => decide (ComputeResult g c.word = .ok o))) ∧
    (IsAscii 5 g → (∀ c ∈ h.possibleWords, IsAscii 5 c.word) →
      ∃ h', h.AddResult g o = .ok h') := by
  have hfilter : h.possibleWords.filter (fun c => decide (ComputeResult g c.word = .ok o)) =
      h.possibleWords.filter (fun c => decide (outcome? g c.word = some o)) := by
    apply List.filter_congr
    intro c _
    simp only [decide_eq_decide]
    exact (outcome?_eq_some g c.word o).symm
  constructor
  · intro h' hadd
    rw [AddResult_eq h g o (AddResult_defined h h' g o hadd)] at hadd
    cases hadd
    exact ⟨rfl, hfilter.symm⟩
  · intro hg hc
    exact ⟨_, AddResult_eq h g o (fun c hmem => outcome?_ascii g c.word hg (hc c hmem))⟩


/-- Witness of C6: the corpus apple, ample, apric, allee, peach after the feedback
[Correct, NotPresent, Correct, Correct, Correct] for the guess "apple" keeps "ample" alone. -/
theorem AddResult_filter_witness :
    IsAscii 5 apple ∧ (∀ c ∈ (NewHeuristicSolver smallCorpus).possibleWords, IsAscii 5 c.word) ∧
    ∃ h', (NewHeuristicSolver smallCorpus).AddResult apple
        ⟨[.Correct, .NotPresent, .Correct, .Correct, .Correct], rfl⟩ = .ok h' ∧
      h'.allWords = smallCorpus ∧ h'.possibleWords = [⟨ample, 1⟩] := by
  refine ⟨by decide, by decide, ?_⟩
  obtain ⟨h', hadd⟩ := (AddResult_filter (NewHeuristicSolver smallCorpus) apple
    ⟨[.Correct, .NotPresent, .Correct, .Correct, .Correct], rfl⟩).2 (by decide) (by decide)
  obtain ⟨hall, hposs⟩ := (AddResult_filter (NewHeuristicSolver smallCorpus) apple
    ⟨[.Correct, .NotPresent, .Correct, .Correct, .Correct], rfl⟩).1 h' hadd
  refine ⟨h', hadd, hall, hposs.trans ?_⟩
  decide

/-- C7. Whenever `AddResult(g, ComputeResult(g, s))` returns, `possibleWords` is no longer than
before and `s`, if it was the word of an entry before, is still the word of an entry; and the
call does return when `g`, `s` and the candidates are words of 5 ASCII characters. -/
theorem AddResult_monotone (h : heuristicSolver) (g s : GoString) :
    (∀ o h', ComputeResult g s = .ok o → h.AddResult g o = .ok h' →
      h'.possibleWords.length ≤ h.possibleWords.length ∧
      (s ∈ h.possibleWords.map word.word → s ∈ h'.possibleWords.map word.word)) ∧
    (IsAscii 5 g → IsAscii 5 s → (∀ c ∈ h.possibleWords, IsAscii 5 c.word) →
      ∃ o h', ComputeResult g s = .ok o ∧ h.AddResult g o = .ok h') := by
  constructor
  · intro o h' hcr hadd
    rw [AddResult_eq h g o (AddResult_defined h h' g o hadd)] at hadd
    cases hadd
    refine ⟨List.length_filter_le _ _, fun hs => ?_⟩
    obtain ⟨c, hc, rfl⟩ := List.mem_map.1 hs
    refine List.mem_map.2 ⟨c, List.mem_filter.2 ⟨hc, ?_⟩, rfl⟩
    simpa using (outcome?_eq_some g c.word o).2 hcr
  · intro hg hs hc
    exact ⟨_, _, ComputeResult_ascii g s hg hs,
      AddResult_eq h g _ (fun c hmem => outcome?_ascii g c.word hg (hc c hmem))⟩

/-- Witness of C7: guess "apple", secret "peach" on the corpus apple, ample, apric, allee,
peach. -/
theorem AddResult_monotone_witness :
    IsAscii 5 apple ∧ IsAscii 5 peach ∧
    (∀ c ∈ (NewHeuristicSolver smallCorpus).possibleWords, IsAscii 5 c.word) ∧
    peach ∈ (NewHeuristicSolver smallCorpus).possibleWords.map word.word ∧
    ∃ o h', ComputeResult apple peach = .ok o ∧
      (NewHeuristicSolver smallCorpus).AddResult apple o = .ok h' ∧
      h'.possibleWords.length ≤ (NewHeuristicSolver smallCorpus).possibleWords.length ∧
      peach ∈ h'.possibleWords.map word.word := by
  refine ⟨by decide, by decide, by decide, by decide, ?_⟩
  obtain ⟨o, h', hcr, hadd⟩ := (AddResult_monotone (NewHeuristicSolver smallCorpus)
    apple peach).2 (by decide) (by decide) (by decide)
  obtain ⟨hlen, hmem⟩ := (AddResult_monotone (NewHeuristicSolver smallCorpus)
    apple peach).1 o h' hcr hadd
  exact ⟨o, h', hcr, hadd, hlen, hmem (by decide)⟩


/-! ## Partition maps -/

theorem mapGet_mapSet (m : PartitionMap) (k k' : GuessResult) (v : Int) :
    mapGet (mapSet m k v) k' = if k = k' then some v else mapGet m k' := by
  induction m with
  | nil => simp [mapSet, mapGet]
  | cons e m ih =>
    obtain ⟨ke, ve⟩ := e
    simp only [mapSet]
    by_cases h1 : ke = k
    · subst h1
      rw [if_pos rfl]
      simp only [mapGet]
      by_cases h2 : ke = k' <;> simp [h2]
    · rw [if_neg h1]
      simp only [mapGet, ih]
      by_cases h2 : ke = k'
      · have : ¬ k = k' := fun h => h1 (h2.trans h.symm)
        simp [h2, this]
      · simp [h2]

theorem mapRead_mapSet (m : PartitionMap) (k k' : GuessResult) (v : Int) :
    mapRead (mapSet m k v) k' = if k = k' then v else mapRead m k' := by
  unfold mapRead
  rw [mapGet_mapSet]
  split_ifs <;> rfl

theorem keys_mapSet (m : PartitionMap) (k : GuessResult) (v : Int) :
    (mapSet m k v).map Prod.fst =
      if k ∈ m.map Prod.fst then m.map Prod.fst else m.map Prod.fst ++ [k] := by
  induction m with
  | nil => simp [mapSet]
  | cons e m ih =>
    obtain ⟨ke, ve⟩ := e
    simp only [mapSet]
    by_cases h1 : ke = k
    · subst h1
      simp
    · rw [if_neg h1]
      simp only [List.map_cons, ih, List.mem_cons]
      have h1' : ¬ k = ke := fun h => h1 h.symm
      by_cases h2 : k ∈ m.map Prod.fst
      · simp [h2]
      · simp [h2, h1']

theorem mapGet_of_mem (m : PartitionMap) (hnd : (m.map Prod.fst).Nodup) (k : GuessResult)
    (v : Int) (hmem : (k, v) ∈ m) : mapGet m k = some v := by
  induction m with
  | nil => cases hmem
  | cons e m ih =>
    obtain ⟨ke, ve⟩ := e
    simp only [List.map_cons, List.nodup_cons] at hnd
    simp only [mapGet]
    rcases List.mem_cons.1 hmem with heq | hm
    · cases heq
      simp
    · have hne : ke ≠ k := by
        intro h
        subst h
        exact hnd.1 (List.mem_map.2 ⟨(ke, v), hm, rfl⟩)
      rw [if_neg hne]
      exact ih hnd.2 hm

theorem mapRead_of_not_mem (m : PartitionMap) (k : GuessResult)
    (hk : k ∉ m.map Prod.fst) : mapRead m k = 0 := by
  unfold mapRead
  induction m with
  | nil => rfl
  | cons e m ih =>
    obtain ⟨ke, ve⟩ := e
    simp only [List.map_cons, List.mem_cons, not_or] at hk
    simp only [mapGet]
    rw [if_neg (fun h => hk.1 h.symm)]
    exact ih hk.2


/-! ## The partition loop of `calculateScoreForGuess` -/

theorem scoreStep_eq (g : GoString) (st : PartitionMap × PartitionMap) (c : word) :
    scoreStep g st c =
      if c.word = g then .ok st
      else
        match ComputeResult g c.word with
        | .error e => .error e
        | .ok o => .ok (accumulate st (o, c.weight)) := by
  rfl

theorem runLoop_scoreStep (g : GoString) (l : List word) (st st' : PartitionMap × PartitionMap)
    (h : runLoop (scoreStep g) l st = .ok st') :
    st' = (l.filterMap (contribution g)).foldl accumulate st := by
  induction l generalizing st with
  | nil =>
    simp only [runLoop] at h
    cases h
    rfl
  | cons c l ih =>
    simp only [runLoop, scoreStep_eq] at h
    by_cases hw : c.word = g
    · rw [if_pos hw] at h
      simp only [] at h
      rw [List.filterMap_cons_none (by simp [contribution, hw])]
      exact ih st h
    · rw [if_neg hw] at h
      cases hcr : ComputeResult g c.word with
      | error e => rw [hcr] at h; cases h
      | ok o =>
        rw [hcr] at h
        simp only [] at h
        have hc : contribution g c = some (o, c.weight) := by
          simp [contribution, hw, (outcome?_eq_some g c.word o).2 hcr]
        rw [List.filterMap_cons_some hc, List.foldl_cons]
        exact ih _ h

theorem runLoop_scoreStep_ok (g : GoString) (l : List word) (st : PartitionMap × PartitionMap)
    (hok : ∀ c ∈ l, ∃ r, ComputeResult g c.word = .ok r) :
    ∃ st', runLoop (scoreStep g) l st = .ok st' := by
  induction l generalizing st with
  | nil => exact ⟨st, rfl⟩
  | cons c l ih =>
    have ih' := fun st => ih st (fun c' hc' => hok c' (List.mem_cons_of_mem _ hc'))
    simp only [runLoop, scoreStep_eq]
    by_cases hw : c.word = g
    · rw [if_pos hw]
      exact ih' st
    · rw [if_neg hw]
      obtain ⟨r, hr⟩ := hok c (List.mem_cons_self _ _)
      rw [hr]
      exact ih' _

theorem weightOf_cons (p : GuessResult × Int) (l : List (GuessResult × Int)) (k : GuessResult) :
    weightOf (p :: l) k = (if p.1 = k then p.2 else 0) + weightOf l k := by
  unfold weightOf
  by_cases h : p.1 = k
  · rw [List.filter_cons_of_pos (by simpa using h), if_pos h]
    simp
  · rw [List.filter_cons_of_neg (by simpa using h), if_neg h]
    simp

theorem countOf_cons (p : GuessResult × Int) (l : List (GuessResult × Int)) (k : GuessResult) :
    countOf (p :: l) k = (if p.1 = k then 1 else 0) + countOf l k := by
  unfold countOf
  by_cases h : p.1 = k
  · rw [List.filter_cons_of_pos (by simpa using h), if_pos h]
    simp [Nat.add_comm]
  · rw [List.filter_cons_of_neg (by simpa using h), if_neg h]
    simp

theorem wrapInt64_of_range (x : Int) (h0 : 0 ≤ x) (h1 : x < 2 ^ 63) : wrapInt64 x = x := by
  unfold wrapInt64
  omega

theorem foldl_accumulate_weights (l : List (GuessResult × Int))
    (st : PartitionMap × PartitionMap) (k : GuessResult) :
    mapRead (l.foldl accumulate st).1 k = mapRead st.1 k + weightOf l k := by
  induction l generalizing st with
  | nil => simp [weightOf]
  | cons p l ih =>
    rw [List.foldl_cons, ih, weightOf_cons]
    simp only [accumulate, mapRead_mapSet]
    by_cases h : p.1 = k
    · rw [if_pos h, if_pos h, h]
      omega
    · rw [if_neg h, if_neg h]
      omega

theorem foldl_accumulate_counts (l : List (GuessResult × Int))
    (st : PartitionMap × PartitionMap)
    (hst : ∀ k, 0 ≤ mapRead st.2 k ∧ mapRead st.2 k + l.length < 2 ^ 63) (k : GuessResult) :
    mapRead (l.foldl accumulate st).2 k = mapRead st.2 k + countOf l k := by
  induction l generalizing st with
  | nil => simp [countOf]
  | cons p l ih =>
    have hp := hst p.1
    simp only [List.length_cons, Nat.cast_add, Nat.cast_one] at hp
    have hwrap : wrapInt64 (mapRead st.2 p.1 + 1) = mapRead st.2 p.1 + 1 :=
      wrapInt64_of_range _ (by omega) (by omega)
    rw [List.foldl_cons, ih, countOf_cons]
    · simp only [accumulate, mapRead_mapSet, hwrap]
      by_cases h : p.1 = k
      · rw [if_pos h, if_pos h, h]
        push_cast
        omega
      · rw [if_neg h, if_neg h]
        push_cast
        omega
    · intro k'
      have hk' := hst k'
      simp only [List.length_cons, Nat.cast_add, Nat.cast_one] at hk'
      simp only [accumulate, mapRead_mapSet, hwrap]
      by_cases h : p.1 = k'
      · rw [if_pos h]
        omega
      · rw [if_neg h]
        omega

theorem foldl_accumulate_nodup (l : List (GuessResult × Int))
    (st : PartitionMap × PartitionMap) (hst : (st.1.map Prod.fst).Nodup) :
    ((l.foldl accumulate st).1.map Prod.fst).Nodup := by
  induction l generalizing st with
  | nil => exact hst
  | cons p l ih =>
    rw [List.foldl_cons]
    apply ih
    simp only [accumulate, keys_mapSet]
    split_ifs with hmem
    · exact hst
    · exact List.Nodup.append hst (List.nodup_singleton _)
        (by
          intro a ha hb
          rw [List.mem_singleton] at hb
          exact hmem (hb ▸ ha))


theorem foldl_add_eq_sum {α : Type} (f : α → Int) (l : List α) (a : Int) :
    l.foldl (fun t e => t + f e) a = a + (l.map f).sum := by
  induction l generalizing a with
  | nil => simp
  | cons e l ih =>
    rw [List.foldl_cons, ih, List.map_cons, List.sum_cons]
    omega

theorem sumPartitions_eq (pc pw : PartitionMap) (hnd : (pw.map Prod.fst).Nodup) :
    sumPartitions pc pw = ∑ k : GuessResult, mapRead pc k * mapRead pw k := by
  unfold sumPartitions
  rw [foldl_add_eq_sum (fun e : GuessResult × Int => mapRead pc e.1 * e.2) pw 0, Int.zero_add]
  have h1 : pw.map (fun e => mapRead pc e.1 * e.2) =
      (pw.map Prod.fst).map (fun k => mapRead pc k * mapRead pw k) := by
    rw [List.map_map]
    apply List.map_congr_left
    intro e he
    obtain ⟨k, v⟩ := e
    simp only [Function.comp_apply, mapRead, mapGet_of_mem pw hnd k v he, Option.getD_some]
  rw [h1, ← List.sum_toFinset _ hnd]
  apply Finset.sum_subset (Finset.subset_univ _)
  intro k _ hk
  rw [List.mem_toFinset] at hk
  rw [mapRead_of_not_mem pw k hk, Int.mul_zero]

theorem contributions_filter (g : GoString) (l : List word) (k : GuessResult) :
    (l.filterMap (contribution g)).filter (fun p => decide (p.1 = k)) =
      (l.filter (fun c => decide (c.word ≠ g ∧ ComputeResult g c.word = .ok k))).map
        (fun c => (k, c.weight)) := by
  induction l with
  | nil => rfl
  | cons c l ih =>
    by_cases hw : c.word = g
    · rw [List.filterMap_cons_none (by simp [contribution, hw]), ih,
        List.filter_cons_of_neg (by simp [hw])]
    · cases hcr : ComputeResult g c.word with
      | error e =>
        have hc : contribution g c = none := by
          simp [contribution, hw, outcome?, hcr]
        rw [List.filterMap_cons_none hc, ih, List.filter_cons_of_neg (by simp [hcr])]
      | ok o =>
        have hc : contribution g c = some (o, c.weight) := by
          simp [contribution, hw, outcome?, hcr]
        rw [List.filterMap_cons_some hc]
        by_cases hok : o = k
        · subst hok
          rw [List.filter_cons_of_pos (by simp), ih,
            List.filter_cons_of_pos (by simp [hw, hcr])]
          rfl
        · rw [List.filter_cons_of_neg (by simpa using hok), ih,
            List.filter_cons_of_neg (by simp [hcr, hok])]

theorem countOf_contributions (h : heuristicSolver) (g : GoString) (k : GuessResult) :
    countOf (h.possibleWords.filterMap (contribution g)) k = (h.partition g k).length := by
  unfold countOf heuristicSolver.partition
  rw [contributions_filter, List.length_map]

theorem weightOf_contributions (h : heuristicSolver) (g : GoString) (k : GuessResult) :
    weightOf (h.possibleWords.filterMap (contribution g)) k =
      ((h.partition g k).map word.weight).sum := by
  unfold weightOf heuristicSolver.partition
  rw [contributions_filter, List.map_map]
  rfl

/-- The value `calculateScoreForGuess` returns, when it returns. -/
theorem calculateScoreForGuess_spec (h : heuristicSolver) (g : GoString)
    (hlen : h.possibleWords.length < 2 ^ 63) (score : Int)
    (hs : h.calculateScoreForGuess g = .ok score) : score = h.specScore g := by
  unfold heuristicSolver.calculateScoreForGuess at hs
  cases hl : runLoop (scoreStep g) h.possibleWords ([], []) with
  | error e => rw [hl] at hs; cases hs
  | ok st =>
    rw [hl] at hs
    obtain ⟨pw, pc⟩ := st
    simp only [] at hs
    cases hs
    have hst := runLoop_scoreStep g _ _ _ hl
    have hpw : pw = ((h.possibleWords.filterMap (contribution g)).foldl accumulate ([], [])).1 :=
      congrArg Prod.fst hst
    have hpc : pc = ((h.possibleWords.filterMap (contribution g)).foldl accumulate ([], [])).2 :=
      congrArg Prod.snd hst
    have hnd : (pw.map Prod.fst).Nodup := by
      rw [hpw]
      exact foldl_accumulate_nodup _ _ List.nodup_nil
    have hlen' : (h.possibleWords.filterMap (contribution g)).length < 2 ^ 63 :=
      lt_of_le_of_lt (List.length_filterMap_le _ _) hlen
    rw [sumPartitions_eq pc pw hnd]
    unfold heuristicSolver.specScore
    apply Finset.sum_congr rfl
    intro k _
    rw [hpw, hpc, foldl_accumulate_weights, foldl_accumulate_counts, countOf_contributions,
      weightOf_contributions]
    · simp [mapRead, mapGet]
    · intro k'
      simp only [mapRead, mapGet, Option.getD_none]
      constructor
      · exact le_refl _
      · have : ((h.possibleWords.filterMap (contribution g)).length : Int) < 2 ^ 63 := by
          exact_mod_cast hlen'
        omega

theorem calculateScoreForGuess_ok (h : heuristicSolver) (g : GoString)
    (hok : ∀ c ∈ h.possibleWords, ∃ r, ComputeResult g c.word = .ok r) :
    ∃ score, h.calculateScoreForGuess g = .ok score := by
  unfold heuristicSolver.calculateScoreForGuess
  obtain ⟨st, hst⟩ := runLoop_scoreStep_ok g h.possibleWords ([], []) hok
  rw [hst]
  exact ⟨_, rfl⟩


theorem runLoop_scoreStep_defined (g : GoString) (l : List word)
    (st st' : PartitionMap × PartitionMap) (h : runLoop (scoreStep g) l st = .ok st') :
    ∀ c ∈ l, c.word ≠ g → ∃ r, ComputeResult g c.word = .ok r := by
  induction l generalizing st with
  | nil => intro c hc; cases hc
  | cons c l ih =>
    simp only [runLoop, scoreStep_eq] at h
    intro c' hc' hne
    by_cases hw : c.word = g
    · rw [if_pos hw] at h
      simp only [] at h
      rcases List.mem_cons.1 hc' with rfl | hmem
      · exact absurd hw hne
      · exact ih st h c' hmem hne
    · rw [if_neg hw] at h
      cases hcr : ComputeResult g c.word with
      | error e => rw [hcr] at h; cases h
      | ok o =>
        rw [hcr] at h
        simp only [] at h
        rcases List.mem_cons.1 hc' with rfl | hmem
        · exact ⟨o, hcr⟩
        · exact ih _ h c' hmem hne

theorem sum_over_outcomes (g : GoString) (N : GuessResult → Int) (M : List word) :
    ∑ o : GuessResult, N o *
        ((M.filter (fun c => decide (ComputeResult g c.word = .ok o))).map word.weight).sum =
      (M.map (fun c =>
        match ComputeResult g c.word with
        | .ok o => N o * c.weight
        | .error _ => 0)).sum := by
  induction M with
  | nil => simp
  | cons c M ih =>
    rw [List.map_cons, List.sum_cons, ← ih]
    cases hcr : ComputeResult g c.word with
    | error e =>
      simp only [Int.zero_add]
      apply Finset.sum_congr rfl
      intro o _
      rw [List.filter_cons_of_neg (by simp [hcr])]
    | ok o0 =>
      simp only []
      have hterm : ∀ o : GuessResult,
          N o * (((c :: M).filter
            (fun c => decide (ComputeResult g c.word = .ok o))).map word.weight).sum =
          (if o0 = o then N o * c.weight else 0) +
            N o * ((M.filter
              (fun c => decide (ComputeResult g c.word = .ok o))).map word.weight).sum := by
        intro o
        by_cases ho : o0 = o
        · subst ho
          rw [List.filter_cons_of_pos (by simp [hcr]), if_pos rfl, List.map_cons, List.sum_cons,
            Int.mul_add]
        · rw [List.filter_cons_of_neg (by simp [hcr, ho]), if_neg ho, Int.zero_add]
      rw [Finset.sum_congr rfl (fun o _ => hterm o), Finset.sum_add_distrib,
        Finset.sum_ite_eq Finset.univ o0 (fun o => N o * c.weight)]
      simp

theorem partition_eq_filter (h : heuristicSolver) (g : GoString) (o : GuessResult) :
    h.partition g o =
      (h.possibleWords.filter (fun c => decide (c.word ≠ g))).filter
        (fun c => decide (ComputeResult g c.word = .ok o)) := by
  unfold heuristicSolver.partition
  rw [List.filter_filter]
  apply List.filter_congr
  intro c _
  by_cases h1 : c.word = g <;> by_cases h2 : ComputeResult g c.word = .ok o <;> simp [h1, h2]

theorem specScore_eq_byCandidate (h : heuristicSolver) (g : GoString)
    (hok : ∀ c ∈ h.possibleWords, c.word ≠ g → ∃ r, ComputeResult g c.word = .ok r) :
    h.specScore g = h.specScoreByCandidate g := by
  unfold heuristicSolver.specScore heuristicSolver.specScoreByCandidate
  have h1 : ∀ o : GuessResult,
      ((h.partition g o).length : Int) * ((h.partition g o).map word.weight).sum =
      ((h.partition g o).length : Int) *
        (((h.possibleWords.filter (fun c => decide (c.word ≠ g))).filter
          (fun c => decide (ComputeResult g c.word = .ok o))).map word.weight).sum := by
    intro o
    rw [← partition_eq_filter]
  rw [Finset.sum_congr rfl (fun o _ => h1 o),
    sum_over_outcomes g (fun o => ((h.partition g o).length : Int))]
  congr 1
  apply List.map_congr_left
  intro c hc
  have hc' := List.mem_filter.1 hc
  obtain ⟨r, hr⟩ := hok c hc'.1 (by simpa using hc'.2)
  rw [hr]
  simp only [heuristicSolver.partition]
  rw [Int.mul_comm]


/-- C9. Whenever `calculateScoreForGuess(g)` returns, its value is the exact integer
`Σ_o count(o) × totalWeight(o)` over all outcomes `o`, where `count(o)` and `totalWeight(o)` are
the number and the total weight of the entries of `possibleWords` other than `g` with outcome
`o`; equivalently the sum over those entries of their weight times the number of entries with
the same outcome. It does return when `g` and the candidates are words of 5 ASCII characters.
(`possibleWords` is a Go slice, so its length is below `2^63`; this is what keeps the `int64`
counters from wrapping.) -/
theorem calculateScoreForGuess_exact (h : heuristicSolver) (g : GoString)
    (hlen : h.possibleWords.length < 2 ^ 63) :
    (∀ score, h.calculateScoreForGuess g = .ok score →
      score = h.specScore g ∧ score = h.specScoreByCandidate g) ∧
    (IsAscii 5 g → (∀ c ∈ h.possibleWords, IsAscii 5 c.word) →
      ∃ score, h.calculateScoreForGuess g = .ok score) := by
  constructor
  · intro score hs
    have h1 := calculateScoreForGuess_spec h g hlen score hs
    refine ⟨h1, h1.trans (specScore_eq_byCandidate h g ?_)⟩
    unfold heuristicSolver.calculateScoreForGuess at hs
    cases hl : runLoop (scoreStep g) h.possibleWords ([], []) with
    | error e => rw [hl] at hs; cases hs
    | ok st => exact runLoop_scoreStep_defined g _ _ _ hl
  · intro hg hc
    exact calculateScoreForGuess_ok h g (fun c hmem => ⟨_, ComputeResult_ascii g c.word hg (hc c hmem)⟩)

/-- Witness of C9: on the corpus apple, ample, apric, allee, peach (weight 1 each) the score of
"apple" is 4. -/
theorem calculateScoreForGuess_exact_witness :
    (NewHeuristicSolver smallCorpus).possibleWords.length < 2 ^ 63 ∧
    (NewHeuristicSolver smallCorpus).calculateScoreForGuess apple = .ok 4 ∧
    (4 : Int) = (NewHeuristicSolver smallCorpus).specScore apple ∧
    (4 : Int) = (NewHeuristicSolver smallCorpus).specScoreByCandidate apple :=
  ⟨by decide, by decide,
    (calculateScoreForGuess_exact (NewHeuristicSolver smallCorpus) apple (by decide)).1 4
      (by decide)⟩


/-! ## `NextGuess` -/

theorem score_of_ok (h : heuristicSolver) (g : GoString) (sc : Int)
    (hs : h.calculateScoreForGuess g = .ok sc) : h.score g = sc := by
  unfold heuristicSolver.score
  rw [hs]

theorem calculateScoreForGuess_wellFormed (h : heuristicSolver) (hwf : WellFormed h)
    (w : word) (hw : w ∈ h.allWords) :
    h.calculateScoreForGuess w.word = .ok (h.score w.word) := by
  obtain ⟨sc, hsc⟩ := calculateScoreForGuess_ok h w.word
    (fun c hc => ⟨_, ComputeResult_ascii w.word c.word (hwf.1 w hw) (hwf.2 c hc)⟩)
  rw [score_of_ok h w.word sc hsc, hsc]

/-- The scoring loop of `NextGuess` keeps the first entry whose score is below the initial
`minScore` and minimal. -/
theorem runLoop_guessStep (h : heuristicSolver) (l : List word)
    (hdef : ∀ w ∈ l, h.calculateScoreForGuess w.word = .ok (h.score w.word))
    (st : GoString × Int) :
    ∃ st', runLoop (guessStep h) l st = .ok st' ∧
      ((st' = st ∧ ∀ w ∈ l, st.2 ≤ h.score w.word) ∨
       (∃ pre w post, l = pre ++ w :: post ∧ st' = (w.word, h.score w.word) ∧
          h.score w.word < st.2 ∧
          (∀ w' ∈ pre, h.score w.word < h.score w'.word) ∧
          (∀ w' ∈ post, h.score w.word ≤ h.score w'.word))) := by
  induction l generalizing st with
  | nil => exact ⟨st, rfl, Or.inl ⟨rfl, fun w hw => by cases hw⟩⟩
  | cons a l ih =>
    have hdef' : ∀ w ∈ l, h.calculateScoreForGuess w.word = .ok (h.score w.word) :=
      fun w hw => hdef w (List.mem_cons_of_mem _ hw)
    simp only [runLoop, guessStep, hdef a (List.mem_cons_self _ _)]
    by_cases hlt : h.score a.word < st.2
    · rw [if_pos hlt]
      obtain ⟨st', hrun, hcase⟩ := ih hdef' (a.word, h.score a.word)
      refine ⟨st', hrun, Or.inr ?_⟩
      rcases hcase with ⟨hst, hall⟩ | ⟨pre, w, post, hl, hst, hw, hpre, hpost⟩
      · exact ⟨[], a, l, rfl, hst, hlt, fun w' hw' => (by cases hw'), hall⟩
      · refine ⟨a :: pre, w, post, by rw [hl]; rfl, hst, lt_trans hw hlt, ?_, hpost⟩
        intro w' hw'
        rcases List.mem_cons.1 hw' with rfl | hmem
        · exact hw
        · exact hpre w' hmem
    · rw [if_neg hlt]
      obtain ⟨st', hrun, hcase⟩ := ih hdef' st
      refine ⟨st', hrun, ?_⟩
      rcases hcase with ⟨hst, hall⟩ | ⟨pre, w, post, hl, hst, hw, hpre, hpost⟩
      · refine Or.inl ⟨hst, ?_⟩
        intro w hw
        rcases List.mem_cons.1 hw with rfl | hmem
        · exact not_lt.1 hlt
        · exact hall w hmem
      · refine Or.inr ⟨a :: pre, w, post, by rw [hl]; rfl, hst, hw, ?_, hpost⟩
        intro w' hw'
        rcases List.mem_cons.1 hw' with rfl | hmem
        · exact lt_of_lt_of_le hw (not_lt.1 hlt)
        · exact hpre w' hmem

theorem NextGuess_scan (h : heuristicSolver) (hlen : 2 ≤ h.possibleWords.length)
    (cache : Option GoString)
    (hcache : h.possibleWords.length = h.allWords.length → cache = none) :
    h.NextGuess cache =
      match runLoop (guessStep h) h.allWords ([], initialMinScore) with
      | .error e => .error e
      | .ok (guess, _) =>
        .ok (guess, if h.possibleWords.length = h.allWords.length then some guess else cache) := by
  obtain ⟨aw, pw⟩ := h
  match pw, hlen with
  | a :: b :: rest, _ =>
    simp only [heuristicSolver.NextGuess]
    by_cases heq : (a :: b :: rest).length = aw.length
    · have hc : cache = none := hcache heq
      subst hc
      simp only [heq, if_true]
    · simp only [heq, if_false]


/-- C8, as amended. In a state whose words are all 5 ASCII characters long, with at least two
entries in `possibleWords`, no cached first guess, and some entry of `allWords` scoring below
the initial `minScore` `(2^63-1)^2`: every entry of `allWords` has a score, and `NextGuess`
returns the word of the first entry of `allWords` of minimal score: its score is at most that
of every entry and strictly below that of every entry before it. (Such a state has a non-empty
`allWords`; the sign of the weights plays no role.) -/
theorem NextGuess_first_minimum (h : heuristicSolver) (hwf : WellFormed h)
    (hlen : 2 ≤ h.possibleWords.length)
    (hbelow : ∃ w ∈ h.allWords, h.score w.word < initialMinScore) :
    (∀ w ∈ h.allWords, h.calculateScoreForGuess w.word = .ok (h.score w.word)) ∧
    ∃ pre w post, h.allWords = pre ++ w :: post ∧
      h.NextGuess none = .ok (w.word,
        if h.possibleWords.length = h.allWords.length then some w.word else none) ∧
      (∀ w' ∈ h.allWords, h.score w.word ≤ h.score w'.word) ∧
      (∀ w' ∈ pre, h.score w.word < h.score w'.word) := by
  have hdef := calculateScoreForGuess_wellFormed h hwf
  refine ⟨hdef, ?_⟩
  obtain ⟨st', hrun, hcase⟩ := runLoop_guessStep h h.allWords hdef ([], initialMinScore)
  rcases hcase with ⟨_, hall⟩ | ⟨pre, w, post, hl, hst, _, hpre, hpost⟩
  · obtain ⟨w, hw, hlt⟩ := hbelow
    exact absurd hlt (not_lt.2 (hall w hw))
  · refine ⟨pre, w, post, hl, ?_, ?_, hpre⟩
    · rw [NextGuess_scan h hlen none (fun _ => rfl), hrun, hst]
    · intro w' hw'
      rw [hl] at hw'
      rcases List.mem_append.1 hw' with hm | hm
      · exact le_of_lt (hpre w' hm)
      · rcases List.mem_cons.1 hm with rfl | hm'
        · exact le_refl _
        · exact hpost w' hm'

/-- Witness of C8 on the corpus apple, ample, apric, allee, peach: the scores are 4, 4, 4, 6, 6
and the guess is "apple". -/
theorem NextGuess_first_minimum_witness :
    WellFormed (NewHeuristicSolver smallCorpus) ∧
    2 ≤ (NewHeuristicSolver smallCorpus).possibleWords.length ∧
    (∃ w ∈ (NewHeuristicSolver smallCorpus).allWords,
      (NewHeuristicSolver smallCorpus).score w.word < initialMinScore) ∧
    ∃ pre w post, (NewHeuristicSolver smallCorpus).allWords = pre ++ w :: post ∧
      (NewHeuristicSolver smallCorpus).NextGuess none = .ok (w.word,
        if (NewHeuristicSolver smallCorpus).possibleWords.length =
          (NewHeuristicSolver smallCorpus).allWords.length then some w.word else none) ∧
      (∀ w' ∈ (NewHeuristicSolver smallCorpus).allWords,
        (NewHeuristicSolver smallCorpus).score w.word ≤
          (NewHeuristicSolver smallCorpus).score w'.word) ∧
      (∀ w' ∈ pre, (NewHeuristicSolver smallCorpus).score w.word <
        (NewHeuristicSolver smallCorpus).score w'.word) :=
  ⟨⟨by decide, by decide⟩, by decide, ⟨⟨apple, 1⟩, by decide, by decide⟩,
    (NextGuess_first_minimum (NewHeuristicSolver smallCorpus) ⟨by decide, by decide⟩
      (by decide) ⟨⟨apple, 1⟩, by decide, by decide⟩).2⟩


theorem wellFormed_twoWordCorpus (n : Nat) (a b : word) (ha : IsAscii 5 a.word)
    (hb : IsAscii 5 b.word) : WellFormed (NewHeuristicSolver (twoWordCorpus n a b)) := by
  have hmem : ∀ w ∈ twoWordCorpus n a b, IsAscii 5 w.word := by
    intro w hw
    rcases List.mem_append.1 hw with hm | hm
    · rw [List.eq_of_mem_replicate hm]; exact ha
    · rw [List.eq_of_mem_replicate hm]; exact hb
  exact ⟨hmem, hmem⟩

theorem specScoreByCandidate_twoWordCorpus_left (n : Nat) (a b : word)
    (hab : a.word ≠ b.word) :
    (NewHeuristicSolver (twoWordCorpus n a b)).specScoreByCandidate a.word =
      (n : Int) * (b.weight * (n : Int)) := by
  have hba : ¬ b.word = a.word := fun h => hab h.symm
  simp only [heuristicSolver.specScoreByCandidate, NewHeuristicSolver, twoWordCorpus,
    List.filter_append]
  rw [List.filter_replicate_of_neg (by simp), List.filter_replicate_of_pos (by simp [hba]),
    List.nil_append, List.map_replicate, List.filter_replicate_of_neg (by simp),
    List.filter_replicate_of_pos (by simp [hba]), List.nil_append, List.length_replicate,
    List.sum_replicate, nsmul_eq_mul]

theorem specScoreByCandidate_twoWordCorpus_right (n : Nat) (a b : word)
    (hab : a.word ≠ b.word) :
    (NewHeuristicSolver (twoWordCorpus n a b)).specScoreByCandidate b.word =
      (n : Int) * (a.weight * (n : Int)) := by
  simp only [heuristicSolver.specScoreByCandidate, NewHeuristicSolver, twoWordCorpus,
    List.filter_append]
  rw [List.filter_replicate_of_pos (by simp [hab]), List.filter_replicate_of_neg (by simp),
    List.append_nil, List.map_replicate, List.filter_replicate_of_pos (by simp [hab]),
    List.filter_replicate_of_neg (by simp), List.append_nil, List.length_replicate,
    List.sum_replicate, nsmul_eq_mul]

theorem score_twoWordCorpus (n : Nat) (a b : word) (ha : IsAscii 5 a.word)
    (hb : IsAscii 5 b.word) (hab : a.word ≠ b.word) (hn : 2 * n < 2 ^ 63) :
    ∀ w ∈ twoWordCorpus n a b,
      (NewHeuristicSolver (twoWordCorpus n a b)).score w.word = (n : Int) * (b.weight * n) ∨
      (NewHeuristicSolver (twoWordCorpus n a b)).score w.word = (n : Int) * (a.weight * n) := by
  intro w hw
  have hwf := wellFormed_twoWordCorpus n a b ha hb
  have hlen : (NewHeuristicSolver (twoWordCorpus n a b)).possibleWords.length < 2 ^ 63 := by
    simp only [NewHeuristicSolver, twoWordCorpus, List.length_append, List.length_replicate]
    omega
  have hsc := calculateScoreForGuess_wellFormed _ hwf w hw
  have hspec := calculateScoreForGuess_spec _ w.word hlen _ hsc
  have hby := specScore_eq_byCandidate (NewHeuristicSolver (twoWordCorpus n a b)) w.word
    (fun c hc _ => ⟨_, ComputeResult_ascii w.word c.word (hwf.1 w hw) (hwf.2 c hc)⟩)
  rw [hby] at hspec
  rcases List.mem_append.1 hw with hm | hm
  · left
    rw [hspec, List.eq_of_mem_replicate hm]
    exact specScoreByCandidate_twoWordCorpus_left n a b hab
  · right
    rw [hspec, List.eq_of_mem_replicate hm]
    exact specScoreByCandidate_twoWordCorpus_right n a b hab

/-- With `n` copies each of two words of weight `2^63-1`, `n² ≥ 2^63-1`, no score is below the
initial `minScore` and `NextGuess` returns the empty string. -/
theorem NextGuess_twoWordCorpus (n : Nat) (a b : GoString) (ha : IsAscii 5 a)
    (hb : IsAscii 5 b) (hab : a ≠ b) (hn : 2 * n < 2 ^ 63) (hbig : 2 ^ 63 - 1 ≤ n * n) :
    (NewHeuristicSolver (twoWordCorpus n ⟨a, 2 ^ 63 - 1⟩ ⟨b, 2 ^ 63 - 1⟩)).NextGuess none =
      .ok ([], some []) := by
  have hn1 : 1 ≤ n := by
    rcases Nat.eq_zero_or_pos n with h0 | h0
    · subst h0; simp at hbig
    · exact h0
  have hwf := wellFormed_twoWordCorpus n ⟨a, 2 ^ 63 - 1⟩ ⟨b, 2 ^ 63 - 1⟩ ha hb
  have hlen : 2 ≤ (NewHeuristicSolver
      (twoWordCorpus n ⟨a, 2 ^ 63 - 1⟩ ⟨b, 2 ^ 63 - 1⟩)).possibleWords.length := by
    simp only [NewHeuristicSolver, twoWordCorpus, List.length_append, List.length_replicate]
    omega
  have hscore : ∀ w ∈ twoWordCorpus n ⟨a, 2 ^ 63 - 1⟩ ⟨b, 2 ^ 63 - 1⟩,
      initialMinScore ≤ (NewHeuristicSolver
        (twoWordCorpus n ⟨a, 2 ^ 63 - 1⟩ ⟨b, 2 ^ 63 - 1⟩)).score w.word := by
    intro w hw
    have hbig' : ((2 : Int) ^ 63 - 1) ≤ (n : Int) * (n : Int) := by
      have : ((2 ^ 63 - 1 : Nat) : Int) ≤ ((n * n : Nat) : Int) := Int.ofNat_le.2 hbig
      push_cast at this
      simpa using this
    have hval : initialMinScore ≤ (n : Int) * (((2 : Int) ^ 63 - 1) * (n : Int)) := by
      unfold initialMinScore
      have e : (n : Int) * (((2 : Int) ^ 63 - 1) * (n : Int)) =
          ((2 : Int) ^ 63 - 1) * ((n : Int) * (n : Int)) := by ring
      rw [e]
      exact Int.mul_le_mul_of_nonneg_left hbig' (by norm_num)
    rcases score_twoWordCorpus n ⟨a, 2 ^ 63 - 1⟩ ⟨b, 2 ^ 63 - 1⟩ ha hb hab hn w hw with h1 | h1
    · rw [h1]; exact hval
    · rw [h1]; exact hval
  obtain ⟨st', hrun, hcase⟩ := runLoop_guessStep _ _
    (calculateScoreForGuess_wellFormed _ hwf) ([], initialMinScore)
  rw [NextGuess_scan _ hlen none (fun _ => rfl), hrun]
  rcases hcase with ⟨hst, _⟩ | ⟨pre, w, post, hl, _, hw, _, _⟩
  · rw [hst]
    simp [NewHeuristicSolver]
  · have hmem : w ∈ twoWordCorpus n ⟨a, 2 ^ 63 - 1⟩ ⟨b, 2 ^ 63 - 1⟩ := by
      have : w ∈ (NewHeuristicSolver
          (twoWordCorpus n ⟨a, 2 ^ 63 - 1⟩ ⟨b, 2 ^ 63 - 1⟩)).allWords := by
        rw [hl]; simp
      exact this
    exact absurd hw (not_lt.2 (hscore w hmem))

theorem mem_twoWordCorpus (n : Nat) (a b w : word) (hw : w ∈ twoWordCorpus n a b) :
    w = a ∨ w = b := by
  rcases List.mem_append.1 hw with hm | hm
  · exact Or.inl (List.eq_of_mem_replicate hm)
  · exact Or.inr (List.eq_of_mem_replicate hm)

theorem length_twoWordCorpus (n : Nat) (a b : word) : (twoWordCorpus n a b).length = n + n := by
  unfold twoWordCorpus
  rw [List.length_append, List.length_replicate, List.length_replicate]

/-- C8 as stated fails in two ways. With 3037000500 copies each of "apple" and "peach", all of
weight `2^63-1`, as both `allWords` and `possibleWords` (non-empty, non-negative weights, no
cache), every score is at least the initial `minScore` and `NextGuess` returns the empty
string, which is no word of `allWords`. And on the corpus "apple", "app" the call does not
return: `ComputeResult("apple", "app")` panics. -/
theorem NextGuess_first_minimum_counterexample :
    (NewHeuristicSolver (twoWordCorpus 3037000500 ⟨apple, 2 ^ 63 - 1⟩
      ⟨peach, 2 ^ 63 - 1⟩)).NextGuess none = .ok ([], some []) ∧
    (∀ w ∈ twoWordCorpus 3037000500 ⟨apple, 2 ^ 63 - 1⟩ ⟨peach, 2 ^ 63 - 1⟩,
      0 ≤ w.weight ∧ w.weight < 2 ^ 63 ∧ w.word ≠ []) ∧
    (twoWordCorpus 3037000500 ⟨apple, 2 ^ 63 - 1⟩ ⟨peach, 2 ^ 63 - 1⟩).length =
      3037000500 + 3037000500 ∧
    (NewHeuristicSolver [⟨apple, 1⟩, ⟨app, 1⟩]).NextGuess none = .error .indexOutOfRange := by
  refine ⟨NextGuess_twoWordCorpus 3037000500 apple peach (by decide) (by decide) (by decide)
    (by norm_num) (by norm_num), ?_, length_twoWordCorpus _ _ _, by decide⟩
  intro w hw
  rcases mem_twoWordCorpus _ _ _ w hw with h1 | h1
  · rw [h1]
    exact ⟨by norm_num, by norm_num, by decide⟩
  · rw [h1]
    exact ⟨by norm_num, by norm_num, by decide⟩


/-! ## Failures of `NextGuess` -/

theorem runLoop_error {σ ι : Type} (step : σ → ι → Except Failure σ)
    (hstep : ∀ st i e, step st i = .error e → e = .indexOutOfRange)
    (l : List ι) (st : σ) (e : Failure) (h : runLoop step l st = .error e) :
    e = .indexOutOfRange := by
  induction l generalizing st with
  | nil => simp only [runLoop] at h; cases h
  | cons i l ih =>
    simp only [runLoop] at h
    cases hs : step st i with
    | error e' =>
      rw [hs] at h
      simp only [] at h
      cases h
      exact hstep st i e hs
    | ok st' =>
      rw [hs] at h
      exact ih st' h

theorem firstPassStep_error (g s : GoString) (st : PassState) (i : Nat) (e : Failure)
    (h : firstPassStep g s st i = .error e) : e = .indexOutOfRange := by
  unfold firstPassStep at h
  split at h
  · split_ifs at h
    cases h
    rfl
  · cases h
    rfl

theorem secondPassStep_error (g : GoString) (st : PassState) (i : Nat) (e : Failure)
    (h : secondPassStep g st i = .error e) : e = .indexOutOfRange := by
  unfold secondPassStep at h
  split_ifs at h
  · split at h
    · split_ifs at h
    · cases h
      rfl
  · cases h
    rfl

theorem ComputeResult_error (g s : GoString) (e : Failure)
    (h : ComputeResult g s = .error e) : e = .indexOutOfRange := by
  unfold ComputeResult at h
  cases h1 : runLoop (firstPassStep g s) (rangeIndices g)
      (Mathlib.Vector.replicate 5 .NotPresent, fun _ => 0) with
  | error e1 =>
    rw [h1] at h
    simp only [] at h
    cases h
    exact runLoop_error _ (firstPassStep_error g s) _ _ _ h1
  | ok st1 =>
    rw [h1] at h
    simp only [] at h
    cases h2 : runLoop (secondPassStep g) (rangeIndices g) st1 with
    | error e2 =>
      rw [h2] at h
      simp only [] at h
      cases h
      exact runLoop_error _ (secondPassStep_error g) _ _ _ h2
    | ok st2 =>
      rw [h2] at h
      cases h

theorem calculateScoreForGuess_error (h : heuristicSolver) (g : GoString) (e : Failure)
    (he : h.calculateScoreForGuess g = .error e) : e = .indexOutOfRange := by
  unfold heuristicSolver.calculateScoreForGuess at he
  cases hl : runLoop (scoreStep g) h.possibleWords ([], []) with
  | error e' =>
    rw [hl] at he
    simp only [] at he
    cases he
    refine runLoop_error _ ?_ _ _ _ hl
    intro st c e hs
    rw [scoreStep_eq] at hs
    split_ifs at hs
    cases hcr : ComputeResult g c.word with
    | error e'' =>
      rw [hcr] at hs
      simp only [] at hs
      cases hs
      exact ComputeResult_error g c.word e hcr
    | ok o => rw [hcr] at hs; cases hs
  | ok st =>
    rw [hl] at he
    cases he

theorem guessStep_error (h : heuristicSolver) (st : GoString × Int) (w : word) (e : Failure)
    (he : guessStep h st w = .error e) : e = .indexOutOfRange := by
  unfold guessStep at he
  cases hc : h.calculateScoreForGuess w.word with
  | error e' =>
    rw [hc] at he
    simp only [] at he
    cases he
    exact calculateScoreForGuess_error h w.word e hc
  | ok sc =>
    rw [hc] at he
    simp only [] at he
    split_ifs at he

theorem NextGuess_nil (h : heuristicSolver) (cache : Option GoString)
    (hpw : h.possibleWords = []) : h.NextGuess cache = .error .noPossibleWordsLeft := by
  unfold heuristicSolver.NextGuess
  rw [hpw]

theorem NextGuess_fatal (h : heuristicSolver) (cache : Option GoString)
    (he : h.NextGuess cache = .error .noPossibleWordsLeft) : h.possibleWords = [] := by
  obtain ⟨aw, pw⟩ := h
  match pw with
  | [] => rfl
  | [w] => simp [heuristicSolver.NextGuess] at he
  | a :: b :: rest =>
    exfalso
    simp only [heuristicSolver.NextGuess] at he
    split at he
    · cases he
    · cases hl : runLoop (guessStep ⟨aw, a :: b :: rest⟩) aw ([], initialMinScore) with
      | error e =>
        rw [hl] at he
        simp only [] at he
        have := runLoop_error _ (guessStep_error _) _ _ _ hl
        rw [this] at he
        cases he
      | ok st =>
        rw [hl] at he
        cases he

theorem NextGuess_returns (h : heuristicSolver) (cache : Option GoString) (hwf : WellFormed h)
    (hpw : h.possibleWords ≠ []) : ∃ guess cache', h.NextGuess cache = .ok (guess, cache') := by
  obtain ⟨st', hrun, _⟩ := runLoop_guessStep h h.allWords
    (calculateScoreForGuess_wellFormed h hwf) ([], initialMinScore)
  unfold heuristicSolver.NextGuess
  split
  · next hnil => exact absurd hnil hpw
  · exact ⟨_, _, rfl⟩
  · split
    · exact ⟨_, _, rfl⟩
    · rw [hrun]
      exact ⟨_, _, rfl⟩

/-- C10, as amended. `NextGuess` fails with the fatal "no possible words left" exactly when
`possibleWords` is empty at entry; in a state whose words are all 5 ASCII characters long and
whose `possibleWords` is non-empty it returns a guess; and after an `AddResult` whose outcome
matches no remaining candidate, `possibleWords` is empty and the next `NextGuess` fails with
that error. -/
theorem NextGuess_exhausted (h : heuristicSolver) (cache : Option GoString) :
    (h.NextGuess cache = .error .noPossibleWordsLeft ↔ h.possibleWords = []) ∧
    (WellFormed h → h.possibleWords ≠ [] →
      ∃ guess cache', h.NextGuess cache = .ok (guess, cache')) ∧
    (∀ g o h', h.AddResult g o = .ok h' →
      (∀ c ∈ h.possibleWords, ComputeResult g c.word ≠ .ok o) →
      h'.possibleWords = [] ∧ h'.NextGuess cache = .error .noPossibleWordsLeft) := by
  refine ⟨⟨NextGuess_fatal h cache, NextGuess_nil h cache⟩, NextGuess_returns h cache, ?_⟩
  intro g o h' hadd hnone
  rw [AddResult_eq h g o (AddResult_defined h h' g o hadd)] at hadd
  cases hadd
  have hempty : h.possibleWords.filter (fun c => decide (outcome? g c.word = some o)) = [] := by
    rw [List.filter_eq_nil_iff]
    intro c hc
    simpa using fun hq => hnone c hc ((outcome?_eq_some g c.word o).1 hq)
  exact ⟨hempty, NextGuess_nil _ cache hempty⟩

/-- Witness of C10 on the corpus apple, ample, apric, allee, peach: `NextGuess` returns a guess,
and after the feedback all-NotPresent for the guess "apple", which no candidate produces,
`possibleWords` is empty and `NextGuess` fails. -/
theorem NextGuess_exhausted_witness :
    WellFormed (NewHeuristicSolver smallCorpus) ∧
    (NewHeuristicSolver smallCorpus).possibleWords ≠ [] ∧
    (∃ guess cache', (NewHeuristicSolver smallCorpus).NextGuess none = .ok (guess, cache')) ∧
    (∀ c ∈ (NewHeuristicSolver smallCorpus).possibleWords,
      ComputeResult apple c.word ≠ .ok allNotPresent) ∧
    ∃ h', (NewHeuristicSolver smallCorpus).AddResult apple allNotPresent = .ok h' ∧
      h'.possibleWords = [] ∧ h'.NextGuess none = .error .noPossibleWordsLeft := by
  refine ⟨⟨by decide, by decide⟩, by decide,
    (NextGuess_exhausted (NewHeuristicSolver smallCorpus) none).2.1 ⟨by decide, by decide⟩
      (by decide), by decide, ?_⟩
  have hadd := AddResult_eq (NewHeuristicSolver smallCorpus) apple allNotPresent
    (fun c hc => outcome?_ascii apple c.word (by decide)
      ((by decide : ∀ c ∈ (NewHeuristicSolver smallCorpus).possibleWords, IsAscii 5 c.word)
        c hc))
  exact ⟨_, hadd, (NextGuess_exhausted (NewHeuristicSolver smallCorpus) none).2.2 apple
    allNotPresent _ hadd (by decide)⟩

/-- C10 as stated fails: on the corpus "app", "apple" (as `allWords` and `possibleWords`, no
cache) `possibleWords` is not empty and `NextGuess` returns no guess; it stops with the
index-out-of-range panic of `ComputeResult("apple", "app")`. -/
theorem NextGuess_exhausted_counterexample :
    (NewHeuristicSolver [⟨app, 1⟩, ⟨apple, 1⟩]).possibleWords ≠ [] ∧
    (NewHeuristicSolver [⟨app, 1⟩, ⟨apple, 1⟩]).NextGuess none = .error .indexOutOfRange ∧
    ComputeResult apple app = .error .indexOutOfRange := by
  decide


/-! ## Single candidate -/

/-- C16. When `possibleWords` has exactly one entry, `NextGuess` returns that entry's word,
whatever `allWords`, the weights and the cache are; the cache is left as it was. -/
theorem NextGuess_single (h : heuristicSolver) (w : word) (cache : Option GoString)
    (hpw : h.possibleWords = [w]) : h.NextGuess cache = .ok (w.word, cache) := by
  unfold heuristicSolver.NextGuess
  rw [hpw]

/-- Witness of C16: `allWords` and `possibleWords` both hold the single entry "peach", and the
cache holds "apple". -/
theorem NextGuess_single_witness :
    (NewHeuristicSolver [⟨peach, 7⟩]).possibleWords = [⟨peach, 7⟩] ∧
    (NewHeuristicSolver [⟨peach, 7⟩]).NextGuess (some apple) = .ok (peach, some apple) :=
  ⟨rfl, NextGuess_single (NewHeuristicSolver [⟨peach, 7⟩]) ⟨peach, 7⟩ (some apple) rfl⟩

/-! ## Sequences of calls -/

theorem AddResult_allWords (h h' : heuristicSolver) (g : GoString) (o : GuessResult)
    (hadd : h.AddResult g o = .ok h') : h'.allWords = h.allWords := by
  rw [AddResult_eq h g o (AddResult_defined h h' g o hadd)] at hadd
  cases hadd
  rfl

theorem AddResult_sublist (h h' : heuristicSolver) (g : GoString) (o : GuessResult)
    (hadd : h.AddResult g o = .ok h') : h'.possibleWords.Sublist h.possibleWords := by
  rw [AddResult_eq h g o (AddResult_defined h h' g o hadd)] at hadd
  cases hadd
  exact List.filter_sublist _

theorem applyCall_invariant (h h' : heuristicSolver) (c : Call)
    (hc : applyCall h c = .ok h') (hsub : h.possibleWords.Sublist h.allWords) :
    h'.allWords = h.allWords ∧ h'.possibleWords.Sublist h'.allWords := by
  cases c with
  | AddResult g o =>
    have hall := AddResult_allWords h h' g o hc
    exact ⟨hall, hall ▸ (AddResult_sublist h h' g o hc).trans hsub⟩
  | Reset =>
    simp only [applyCall] at hc
    cases hc
    exact ⟨rfl, List.Sublist.refl _⟩

theorem applyCalls_invariant (calls : List Call) (h h' : heuristicSolver)
    (hc : applyCalls h calls = .ok h') (hsub : h.possibleWords.Sublist h.allWords) :
    h'.allWords = h.allWords ∧ h'.possibleWords.Sublist h'.allWords := by
  induction calls generalizing h with
  | nil =>
    simp only [applyCalls, runLoop] at hc
    cases hc
    exact ⟨rfl, hsub⟩
  | cons c calls ih =>
    simp only [applyCalls, runLoop] at hc
    cases h1 : applyCall h c with
    | error e => rw [h1] at hc; cases hc
    | ok h1' =>
      rw [h1] at hc
      obtain ⟨hall1, hsub1⟩ := applyCall_invariant h h1' c h1 hsub
      obtain ⟨hall, hsub'⟩ := ih h1' hc hsub1
      exact ⟨hall.trans hall1, hsub'⟩

theorem applyCalls_returns (calls : List Call) (h : heuristicSolver)
    (hcalls : CallsWellFormed calls) (hwf : ∀ w ∈ h.allWords, IsAscii 5 w.word)
    (hsub : h.possibleWords.Sublist h.allWords) :
    ∃ h', applyCalls h calls = .ok h' := by
  induction calls generalizing h with
  | nil => exact ⟨h, rfl⟩
  | cons c calls ih =>
    have hcalls' : CallsWellFormed calls :=
      fun c' hc' g r he => hcalls c' (List.mem_cons_of_mem _ hc') g r he
    have hstep : ∃ h1, applyCall h c = .ok h1 := by
      cases c with
      | AddResult g o =>
        have hg : IsAscii 5 g := hcalls _ (List.mem_cons_self _ _) g o rfl
        exact ⟨_, AddResult_eq h g o
          (fun c hc => outcome?_ascii g c.word hg (hwf c (hsub.subset hc)))⟩
      | Reset => exact ⟨_, rfl⟩
    obtain ⟨h1, hh1⟩ := hstep
    obtain ⟨hall1, hsub1⟩ := applyCall_invariant h h1 c hh1 hsub
    obtain ⟨h', hh'⟩ := ih h1 hcalls' (hall1 ▸ hwf) hsub1
    refine ⟨h', ?_⟩
    simp only [applyCalls, runLoop, hh1]
    exact hh'

/-- C14. After any sequence of `AddResult` and `Reset` calls on a solver constructed with the
corpus `W`, `allWords` is still `W`, and a further `Reset` leaves `possibleWords` equal to `W`
(and `allWords` too). The sequence of calls does return when the corpus words and the guesses
are 5 ASCII characters long. -/
theorem allWords_frame (W : List word) (calls : List Call) :
    (∀ h', applyCalls (NewHeuristicSolver W) calls = .ok h' →
      h'.allWords = W ∧ h'.Reset.possibleWords = W ∧ h'.Reset.allWords = W) ∧
    ((∀ w ∈ W, IsAscii 5 w.word) → CallsWellFormed calls →
      ∃ h', applyCalls (NewHeuristicSolver W) calls = .ok h') := by
  constructor
  · intro h' hc
    have hall := (applyCalls_invariant calls _ h' hc (List.Sublist.refl _)).1
    exact ⟨hall, hall, hall⟩
  · intro hW hcalls
    exact applyCalls_returns calls _ hcalls hW (List.Sublist.refl _)

/-- Witness of C14: the sample session on the corpus apple, ample, apric, allee, peach. -/
theorem allWords_frame_witness :
    (∀ w ∈ smallCorpus, IsAscii 5 w.word) ∧ CallsWellFormed sampleCalls ∧
    ∃ h', applyCalls (NewHeuristicSolver smallCorpus) sampleCalls = .ok h' ∧
      h'.allWords = smallCorpus ∧ h'.Reset.possibleWords = smallCorpus ∧
      h'.Reset.allWords = smallCorpus := by
  have hW : ∀ w ∈ smallCorpus, IsAscii 5 w.word := by decide
  have hcalls : CallsWellFormed sampleCalls := by
    intro c hc g r he
    simp only [sampleCalls, List.mem_cons, List.mem_singleton, List.not_mem_nil, or_false] at hc
    rcases hc with rfl | rfl | rfl
    · cases he; decide
    · cases he
    · cases he; decide
  obtain ⟨h', hh'⟩ := (allWords_frame smallCorpus sampleCalls).2 hW hcalls
  exact ⟨hW, hcalls, h', hh', (allWords_frame smallCorpus sampleCalls).1 h' hh'⟩

/-- C20. In every state reached from `NewHeuristicSolver` by `AddResult` and `Reset` calls,
`possibleWords` is a sub-list of `allWords` (same relative order), so the two lists have the
same length exactly when they are equal. -/
theorem possibleWords_sublist (W : List word) (calls : List Call) (h' : heuristicSolver)
    (hc : applyCalls (NewHeuristicSolver W) calls = .ok h') :
    h'.possibleWords.Sublist h'.allWords ∧
    (h'.possibleWords.length = h'.allWords.length ↔ h'.possibleWords = h'.allWords) := by
  have hsub := (applyCalls_invariant calls _ h' hc (List.Sublist.refl _)).2
  exact ⟨hsub, fun hlen => hsub.eq_of_length hlen, fun heq => by rw [heq]⟩


/-- Witness of C20: after the sample session `possibleWords` is the single entry "apric". -/
theorem possibleWords_sublist_witness :
    applyCalls (NewHeuristicSolver smallCorpus) sampleCalls =
      .ok ⟨smallCorpus, [⟨apric, 1⟩]⟩ ∧
    ([⟨apric, 1⟩] : List word).Sublist smallCorpus ∧
    (([⟨apric, 1⟩] : List word).length = smallCorpus.length ↔
      ([⟨apric, 1⟩] : List word) = smallCorpus) :=
  ⟨by decide, possibleWords_sublist smallCorpus sampleCalls ⟨smallCorpus, [⟨apric, 1⟩]⟩
    (by decide)⟩


/-! ## When `ComputeResult` returns -/

theorem mem_rangeFrom (fuel i : Nat) (s : GoString) (j : Nat) (hj : j ∈ rangeFrom fuel i s) :
    i ≤ j ∧ j < i + s.length := by
  induction fuel generalizing i s with
  | zero => simp [rangeFrom] at hj
  | succ fuel ih =>
    cases s with
    | nil => simp [rangeFrom] at hj
    | cons b rest =>
      simp only [rangeFrom, List.mem_cons] at hj
      rcases hj with rfl | hj
      · simp
      · have h := ih _ _ hj
        have hlen : ((b :: rest).drop (runeWidth (b :: rest))).length =
            (b :: rest).length - runeWidth (b :: rest) := List.length_drop _ _
        omega

theorem mem_rangeIndices (s : GoString) (j : Nat) (hj : j ∈ rangeIndices s) : j < s.length := by
  have := mem_rangeFrom _ _ _ _ hj
  omega

theorem runLoop_ok_iff {σ ι : Type} (step : σ → ι → Except Failure σ) (P : ι → Prop)
    (l : List ι) (hstep : ∀ i ∈ l, ∀ st, (∃ st', step st i = .ok st') ↔ P i) (st : σ) :
    (∃ st', runLoop step l st = .ok st') ↔ ∀ i ∈ l, P i := by
  induction l generalizing st with
  | nil => simp [runLoop]
  | cons i l ih =>
    have ih' := fun st => ih (fun j hj => hstep j (List.mem_cons_of_mem _ hj)) st
    have hi := hstep i (List.mem_cons_self _ _) st
    simp only [runLoop, List.forall_mem_cons]
    cases hs : step st i with
    | error e =>
      rw [hs] at hi
      simp only []
      constructor
      · rintro ⟨st', h'⟩
        cases h'
      · rintro ⟨hP, _⟩
        obtain ⟨st', h'⟩ := hi.2 hP
        cases h'
    | ok st1 =>
      rw [hs] at hi
      simp only []
      rw [ih' st1]
      exact ⟨fun h => ⟨hi.1 ⟨st1, rfl⟩, h⟩, fun h => h.2⟩

theorem firstPassStep_ok_iff (g s : GoString) (i : Nat) (hi : i < g.length) (st : PassState) :
    (∃ st', firstPassStep g s st i = .ok st') ↔ (i < s.length ∧ (g[i]? = s[i]? → i < 5)) := by
  have hgi : g[i]? = some (g[i]) := List.getElem?_eq_getElem hi
  by_cases hs : i < s.length
  · have hsi : s[i]? = some (s[i]) := List.getElem?_eq_getElem hs
    simp only [firstPassStep, hgi, hsi, Option.some.injEq]
    by_cases heq : g[i] = s[i]
    · rw [if_pos heq]
      by_cases h5 : i < 5
      · rw [dif_pos h5]
        exact ⟨fun _ => ⟨hs, fun _ => h5⟩, fun _ => ⟨_, rfl⟩⟩
      · rw [dif_neg h5]
        constructor
        · rintro ⟨st', h'⟩
          cases h'
        · intro h
          exact absurd (h.2 heq) h5
    · rw [if_neg heq]
      exact ⟨fun _ => ⟨hs, fun h => absurd h heq⟩, fun _ => ⟨_, rfl⟩⟩
  · have hsi : s[i]? = none := List.getElem?_eq_none (by omega)
    simp only [firstPassStep, hgi, hsi]
    constructor
    · rintro ⟨st', h'⟩
      cases h'
    · intro h
      exact absurd h.1 hs

theorem secondPassStep_ok_iff (g : GoString) (i : Nat) (hi : i < g.length) (st : PassState) :
    (∃ st', secondPassStep g st i = .ok st') ↔ i < 5 := by
  have hgi : g[i]? = some (g[i]) := List.getElem?_eq_getElem hi
  by_cases h5 : i < 5
  · simp only [secondPassStep, dif_pos h5, hgi, h5, iff_true]
    split_ifs <;> exact ⟨_, rfl⟩
  · simp only [secondPassStep, dif_neg h5, h5, iff_false]
    rintro ⟨st', h'⟩
    cases h'

theorem ComputeResult_ok_iff (g s : GoString) :
    (∃ r, ComputeResult g s = .ok r) ↔ ∀ i ∈ rangeIndices g, i < 5 ∧ i < s.length := by
  have h1 := runLoop_ok_iff (firstPassStep g s) (fun i => i < s.length ∧ (g[i]? = s[i]? → i < 5))
    (rangeIndices g) (fun i hi st => firstPassStep_ok_iff g s i (mem_rangeIndices g i hi) st)
    (Mathlib.Vector.replicate 5 .NotPresent, fun _ => 0)
  have h2 := fun st => runLoop_ok_iff (secondPassStep g) (fun i => i < 5)
    (rangeIndices g) (fun i hi st => secondPassStep_ok_iff g i (mem_rangeIndices g i hi) st) st
  unfold ComputeResult
  constructor
  · rintro ⟨r, hr⟩
    cases hf : runLoop (firstPassStep g s) (rangeIndices g)
        (Mathlib.Vector.replicate 5 .NotPresent, fun _ => 0) with
    | error e => rw [hf] at hr; cases hr
    | ok st1 =>
      rw [hf] at hr
      simp only [] at hr
      cases hsnd : runLoop (secondPassStep g) (rangeIndices g) st1 with
      | error e => rw [hsnd] at hr; cases hr
      | ok st2 =>
        intro i hi
        exact ⟨(h2 st1).1 ⟨st2, hsnd⟩ i hi, (h1.1 ⟨st1, hf⟩ i hi).1⟩
  · intro hall
    obtain ⟨st1, hf⟩ := h1.2 (fun i hi => ⟨(hall i hi).2, fun _ => (hall i hi).1⟩)
    obtain ⟨st2, hsnd⟩ := (h2 st1).2 (fun i hi => (hall i hi).1)
    rw [hf]
    simp only []
    rw [hsnd]
    exact ⟨_, rfl⟩

/-- C11 as stated fails: `ComputeResult` checks no length. The empty guess against "apple"
returns all-NotPresent, and "app" against "apple" returns
[Correct, Correct, Correct, NotPresent, NotPresent]. -/
theorem ComputeResult_length_counterexample :
    computeTags [] apple =
      some [.NotPresent, .NotPresent, .NotPresent, .NotPresent, .NotPresent] ∧
    computeTags app apple =
      some [.Correct, .Correct, .Correct, .NotPresent, .NotPresent] := by
  decide

/-- C11, as amended. `ComputeResult(guess, secret)` returns exactly when every offset visited by
`range guess` is below 5 and below `len(secret)`; otherwise it stops with an index-out-of-range
panic, its only failure. For an ASCII guess it returns exactly when the guess has at most 5
bytes and is no longer than the secret. -/
theorem ComputeResult_returns_iff (g s : GoString) :
    ((∃ r, ComputeResult g s = .ok r) ↔ ∀ i ∈ rangeIndices g, i < 5 ∧ i < s.length) ∧
    (ComputeResult g s = .error .indexOutOfRange ↔
      ∃ i ∈ rangeIndices g, 5 ≤ i ∨ s.length ≤ i) ∧
    ((∀ b ∈ g, b.val < 0x80) →
      ((∃ r, ComputeResult g s = .ok r) ↔ g.length ≤ 5 ∧ g.length ≤ s.length)) := by
  have hok := ComputeResult_ok_iff g s
  refine ⟨hok, ?_, ?_⟩
  · constructor
    · intro he
      by_contra hne
      have hall : ∀ i ∈ rangeIndices g, i < 5 ∧ i < s.length := by
        intro i hi
        by_contra hlt
        exact hne ⟨i, hi, by omega⟩
      obtain ⟨r, hr⟩ := hok.2 hall
      rw [hr] at he
      cases he
    · rintro ⟨i, hi, hbad⟩
      cases hcr : ComputeResult g s with
      | error e => rw [ComputeResult_error g s e hcr]
      | ok r =>
        have := hok.1 ⟨r, hcr⟩ i hi
        omega
  · intro hascii
    rw [hok, rangeIndices_ascii g.length g ⟨rfl, hascii⟩]
    constructor
    · intro h
      rcases Nat.eq_zero_or_pos g.length with h0 | hpos
      · omega
      · have := h (g.length - 1) (List.mem_range.2 (by omega))
        omega
    · intro h i hi
      have := List.mem_range.1 hi
      omega

/-- Witness of C11: the ASCII guess "app" against "apple" returns. -/
theorem ComputeResult_returns_iff_witness :
    (∀ b ∈ app, b.val < 0x80) ∧ app.length ≤ 5 ∧ app.length ≤ apple.length ∧
    ∃ r, ComputeResult app apple = .ok r :=
  ⟨(by decide : IsAscii 3 app).2, by decide, by decide,
    ((ComputeResult_returns_iff app apple).2.2 (by decide : IsAscii 3 app).2).2
      ⟨by decide, by decide⟩⟩

/-! ## `ParseResult` -/

theorem runeWidth_ascii (b : Fin 256) (rest : GoString) (hb : b.val < 0x80) :
    runeWidth (b :: rest) = 1 := by
  simp only [runeWidth]
  rw [if_pos (by omega)]

theorem decodeRune_ascii (b : Fin 256) (rest : GoString) (hb : b.val < 0x80) :
    decodeRune (b :: rest) = b.val := by
  simp only [decodeRune, runeWidth_ascii b rest hb]
  rw [if_pos hb]

theorem decodeRune_of_width_one (b : Fin 256) (rest : GoString)
    (hw : runeWidth (b :: rest) = 1) (hb : ¬ b.val < 0x80) :
    decodeRune (b :: rest) = 0xFFFD := by
  simp only [decodeRune, hw]
  rw [if_neg hb]

/-- A rune that does not start with an ASCII byte is not an ASCII rune. -/
theorem decodeRune_ge (b : Fin 256) (rest : GoString) (hb : ¬ b.val < 0x80) :
    0x80 ≤ decodeRune (b :: rest) := by
  by_cases h1 : b.val < 0xC2
  · have hw : runeWidth (b :: rest) = 1 := by
      simp only [runeWidth]
      rw [if_pos h1]
    rw [decodeRune_of_width_one b rest hw hb]
    decide
  by_cases h2 : b.val < 0xE0
  · cases rest with
    | nil =>
      have hw : runeWidth [b] = 1 := by
        simp only [runeWidth]
        rw [if_neg h1, if_pos h2]
      rw [decodeRune_of_width_one b [] hw hb]
      decide
    | cons b1 r =>
      by_cases hc : isCont b1 = true
      · have hw : runeWidth (b :: b1 :: r) = 2 := by
          simp only [runeWidth]
          rw [if_neg h1, if_pos h2, if_pos hc]
        simp only [decodeRune, hw]
        omega
      · have hw : runeWidth (b :: b1 :: r) = 1 := by
          simp only [runeWidth]
          rw [if_neg h1, if_pos h2, if_neg hc]
        rw [decodeRune_of_width_one b _ hw hb]
        decide
  by_cases h3 : b.val < 0xF0
  · rcases rest with _ | ⟨b1, _ | ⟨b2, r⟩⟩
    · have hw : runeWidth [b] = 1 := by
        simp only [runeWidth]
        rw [if_neg h1, if_neg h2, if_pos h3]
      rw [decodeRune_of_width_one b [] hw hb]
      decide
    · have hw : runeWidth [b, b1] = 1 := by
        simp only [runeWidth]
        rw [if_neg h1, if_neg h2, if_pos h3]
      rw [decodeRune_of_width_one b _ hw hb]
      decide
    · by_cases hc : (if b.val = 0xE0 then 0xA0 else 0x80) ≤ b1.val ∧
          b1.val ≤ (if b.val = 0xED then 0x9F else 0xBF) ∧ isCont b2 = true
      · have hw : runeWidth (b :: b1 :: b2 :: r) = 3 := by
          simp only [runeWidth]
          rw [if_neg h1, if_neg h2, if_pos h3, if_pos hc]
        simp only [decodeRune, hw]
        have hc1 := hc.1
        have hc2 := hc.2.1
        split_ifs at hc1 hc2 <;> omega
      · have hw : runeWidth (b :: b1 :: b2 :: r) = 1 := by
          simp only [runeWidth]
          rw [if_neg h1, if_neg h2, if_pos h3, if_neg hc]
        rw [decodeRune_of_width_one b _ hw hb]
        decide
  by_cases h4 : b.val < 0xF5
  · rcases rest with _ | ⟨b1, _ | ⟨b2, _ | ⟨b3, r⟩⟩⟩
    · have hw : runeWidth [b] = 1 := by
        simp only [runeWidth]
        rw [if_neg h1, if_neg h2, if_neg h3, if_pos h4]
      rw [decodeRune_of_width_one b [] hw hb]
      decide
    · have hw : runeWidth [b, b1] = 1 := by
        simp only [runeWidth]
        rw [if_neg h1, if_neg h2, if_neg h3, if_pos h4]
      rw [decodeRune_of_width_one b _ hw hb]
      decide
    · have hw : runeWidth [b, b1, b2] = 1 := by
        simp only [runeWidth]
        rw [if_neg h1, if_neg h2, if_neg h3, if_pos h4]
      rw [decodeRune_of_width_one b _ hw hb]
      decide
    · by_cases hc : (if b.val = 0xF0 then 0x90 else 0x80) ≤ b1.val ∧
          b1.val ≤ (if b.val = 0xF4 then 0x8F else 0xBF) ∧ isCont b2 = true ∧ isCont b3 = true
      · have hw : runeWidth (b :: b1 :: b2 :: b3 :: r) = 4 := by
          simp only [runeWidth]
          rw [if_neg h1, if_neg h2, if_neg h3, if_pos h4, if_pos hc]
        simp only [decodeRune, hw]
        have hc1 := hc.1
        have hc2 := hc.2.1
        split_ifs at hc1 hc2 <;> omega
      · have hw : runeWidth (b :: b1 :: b2 :: b3 :: r) = 1 := by
          simp only [runeWidth]
          rw [if_neg h1, if_neg h2, if_neg h3, if_pos h4, if_neg hc]
        rw [decodeRune_of_width_one b _ hw hb]
        decide
  · have hw : runeWidth (b :: rest) = 1 := by
      simp only [runeWidth]
      rw [if_neg h1, if_neg h2, if_neg h3, if_neg h4]
    rw [decodeRune_of_width_one b rest hw hb]
    decide


theorem parseStep_ok (st st' : GuessResult) (ir : Nat × Nat)
    (h : parseStep st ir = .ok st') : ir.2 = 67 ∨ ir.2 = 80 ∨ ir.2 = 78 := by
  unfold parseStep at h
  split_ifs at h with h5 hC hP hN
  · exact Or.inl hC
  · exact Or.inr (Or.inl hP)
  · exact Or.inr (Or.inr hN)

theorem isTagChar_lt (b : Fin 256) (hb : IsTagChar b) : b.val < 0x80 := by
  rcases hb with rfl | rfl | rfl <;> decide

theorem parseStep_tagChar (st : GuessResult) (k : Nat) (hk : k < 5) (b : Fin 256)
    (hb : IsTagChar b) : parseStep st (k, b.val) = .ok (st.set ⟨k, hk⟩ (charTag b)) := by
  unfold parseStep
  rw [dif_pos hk]
  rcases hb with rfl | rfl | rfl
  · exact if_pos rfl
  · exact (if_neg (show ¬ (80 : Nat) = 67 by decide)).trans (if_pos rfl)
  · exact (if_neg (show ¬ (78 : Nat) = 67 by decide)).trans
      ((if_neg (show ¬ (78 : Nat) = 80 by decide)).trans (if_pos rfl))

theorem runesFrom_tagChars (bs : GoString) (fuel i : Nat) (st st' : GuessResult)
    (hfuel : bs.length ≤ fuel) (h : runLoop parseStep (runesFrom fuel i bs) st = .ok st') :
    ∀ b ∈ bs, IsTagChar b := by
  induction bs generalizing fuel i st with
  | nil => intro b hb; cases hb
  | cons b rest ih =>
    cases fuel with
    | zero => simp at hfuel
    | succ fuel =>
      simp only [runesFrom, runLoop] at h
      cases hstep : parseStep st (i, decodeRune (b :: rest)) with
      | error e => rw [hstep] at h; cases h
      | ok st1 =>
        rw [hstep] at h
        simp only [] at h
        have hrune := parseStep_ok st st1 _ hstep
        simp only [] at hrune
        have hb : b.val < 0x80 := by
          by_contra hge
          have := decodeRune_ge b rest hge
          omega
        rw [decodeRune_ascii b rest hb] at hrune
        rw [runeWidth_ascii b rest hb] at h
        have hrest := ih fuel (i + 1) st1 (by simpa using hfuel) h
        intro b' hb'
        rcases List.mem_cons.1 hb' with rfl | hmem
        · rcases hrune with h1 | h1 | h1
          · exact Or.inl (Fin.ext h1)
          · exact Or.inr (Or.inl (Fin.ext h1))
          · exact Or.inr (Or.inr (Fin.ext h1))
        · exact hrest b' hmem

theorem ParseResult_valid (b0 b1 b2 b3 b4 : Fin 256) (h0 : IsTagChar b0) (h1 : IsTagChar b1)
    (h2 : IsTagChar b2) (h3 : IsTagChar b3) (h4 : IsTagChar b4) :
    ParseResult [b0, b1, b2, b3, b4] =
      .ok ⟨[charTag b0, charTag b1, charTag b2, charTag b3, charTag b4], rfl⟩ := by
  have a0 := isTagChar_lt b0 h0
  have a1 := isTagChar_lt b1 h1
  have a2 := isTagChar_lt b2 h2
  have a3 := isTagChar_lt b3 h3
  have a4 := isTagChar_lt b4 h4
  simp only [ParseResult, rangeRunes, List.length_cons, List.length_nil, runesFrom,
    runeWidth_ascii _ _ a0, runeWidth_ascii _ _ a1, runeWidth_ascii _ _ a2,
    runeWidth_ascii _ _ a3, runeWidth_ascii _ _ a4, decodeRune_ascii _ _ a0,
    decodeRune_ascii _ _ a1, decodeRune_ascii _ _ a2, decodeRune_ascii _ _ a3,
    decodeRune_ascii _ _ a4, List.drop_succ_cons, List.drop_zero, runLoop,
    parseStep_tagChar _ 0 (by decide) b0 h0, parseStep_tagChar _ 1 (by decide) b1 h1,
    parseStep_tagChar _ 2 (by decide) b2 h2, parseStep_tagChar _ 3 (by decide) b3 h3,
    parseStep_tagChar _ 4 (by decide) b4 h4]
  rfl


theorem list_length_five {α : Type} (l : List α) (h : l.length = 5) :
    ∃ a b c d e, l = [a, b, c, d, e] := by
  rcases l with _ | ⟨a, _ | ⟨b, _ | ⟨c, _ | ⟨d, _ | ⟨e, _ | ⟨f, r⟩⟩⟩⟩⟩⟩ <;>
    simp at h
  exact ⟨a, b, c, d, e, rfl⟩

theorem ParseResult_ok_of_valid (r : GoString) (hlen : r.length = 5)
    (hall : ∀ b ∈ r, IsTagChar b) :
    ∃ o, ParseResult r = .ok o ∧ o.toList = r.map charTag := by
  obtain ⟨b0, b1, b2, b3, b4, rfl⟩ := list_length_five r hlen
  exact ⟨_, ParseResult_valid b0 b1 b2 b3 b4 (hall _ (by simp)) (hall _ (by simp))
    (hall _ (by simp)) (hall _ (by simp)) (hall _ (by simp)), rfl⟩

theorem ParseResult_ok_valid (r : GoString) (o : GuessResult) (h : ParseResult r = .ok o) :
    r.length = 5 ∧ ∀ b ∈ r, IsTagChar b := by
  unfold ParseResult at h
  split_ifs at h with hlen
  have hlen' : r.length = 5 := not_not.1 hlen
  exact ⟨hlen', runesFrom_tagChars r _ _ _ _ (le_refl _) h⟩

/-- C12. `ParseResult(r)` panics exactly when `r` is not 5 bytes long or holds a byte other than
`C`, `P`, `N` (a character other than these letters has such a byte); a wrong length gives the
"invalid result" panic. For `r` of length 5 over these letters it returns the outcome whose
`i`-th tag is Correct, Present or NotPresent according to `r[i]`. -/
theorem ParseResult_fails_iff (r : GoString) :
    ((∃ e, ParseResult r = .error e) ↔ (r.length ≠ 5 ∨ ∃ b ∈ r, ¬ IsTagChar b)) ∧
    (r.length ≠ 5 → ParseResult r = .error .invalidResult) ∧
    (r.length = 5 → (∀ b ∈ r, IsTagChar b) →
      ∃ o, ParseResult r = .ok o ∧ o.toList = r.map charTag) := by
  refine ⟨⟨?_, ?_⟩, ?_, ParseResult_ok_of_valid r⟩
  · rintro ⟨e, he⟩
    by_contra hne
    have hlen : r.length = 5 := by
      by_contra h
      exact hne (Or.inl h)
    have hall : ∀ b ∈ r, IsTagChar b := by
      intro b hb
      by_contra h
      exact hne (Or.inr ⟨b, hb, h⟩)
    obtain ⟨o, ho, _⟩ := ParseResult_ok_of_valid r hlen hall
    rw [ho] at he
    cases he
  · intro hbad
    cases hp : ParseResult r with
    | error e => exact ⟨e, rfl⟩
    | ok o =>
      obtain ⟨hlen, hall⟩ := ParseResult_ok_valid r o hp
      rcases hbad with h | ⟨b, hb, h⟩
      · exact absurd hlen h
      · exact absurd (hall b hb) h
  · intro hlen
    unfold ParseResult
    rw [if_pos hlen]

/-- Witness of C12: "CCPNN" parses to [Correct, Correct, Present, NotPresent, NotPresent];
"CCP" and "CCPXN" fail. -/
theorem ParseResult_fails_iff_witness :
    ccpnn.length = 5 ∧ (∀ b ∈ ccpnn, IsTagChar b) ∧
    (∃ o, ParseResult ccpnn = .ok o ∧ o.toList = ccpnn.map charTag) ∧
    ccpnn.map charTag = [.Correct, .Correct, .Present, .NotPresent, .NotPresent] ∧
    ParseResult ccp = .error .invalidResult ∧
    ParseResult ccpxn = .error .invalidCharacter :=
  ⟨rfl, by simp [ccpnn, IsTagChar],
    (ParseResult_fails_iff ccpnn).2.2 rfl (by simp [ccpnn, IsTagChar]), by decide, by decide,
    by decide⟩

theorem charTag_tagChar (t : PositionResult) : charTag (tagChar t) = t := by
  cases t <;> rfl

theorem isTagChar_tagChar (t : PositionResult) : IsTagChar (tagChar t) := by
  cases t
  · exact Or.inr (Or.inr rfl)
  · exact Or.inr (Or.inl rfl)
  · exact Or.inl rfl

theorem ParseResult_printResult_eq (o : GuessResult) : ParseResult (printResult o) = .ok o := by
  obtain ⟨l, hl⟩ := o
  obtain ⟨t0, t1, t2, t3, t4, rfl⟩ := list_length_five l hl
  have h := ParseResult_valid (tagChar t0) (tagChar t1) (tagChar t2) (tagChar t3) (tagChar t4)
    (isTagChar_tagChar _) (isTagChar_tagChar _) (isTagChar_tagChar _) (isTagChar_tagChar _)
    (isTagChar_tagChar _)
  simp only [charTag_tagChar] at h
  exact h

theorem ComputeResult_refl_ascii (s : GoString) (hs : IsAscii 5 s) :
    ComputeResult s s = .ok allCorrect := by
  rw [ComputeResult_ascii s s hs hs, allCorrect, replicate_eq_ofFn]
  congr 2
  funext i
  exact tagAt_of_eq s s 5 i.val rfl

/-- C13. For every outcome `O`, `ParseResult` applied to the printable form of `O` returns
exactly `O`; `ParseResult("CCCCC")` is the all-Correct outcome, the one `ComputeResult(s, s)`
returns on every string `s` of 5 ASCII characters. -/
theorem ParseResult_roundtrip :
    (∀ o : GuessResult, ParseResult (printResult o) = .ok o) ∧
    ParseResult CorrectResultStr = .ok allCorrect ∧
    (∀ s, IsAscii 5 s → ComputeResult s s = ParseResult CorrectResultStr) := by
  have hc : ParseResult CorrectResultStr = .ok allCorrect := by decide
  exact ⟨ParseResult_printResult_eq, hc, fun s hs => (ComputeResult_refl_ascii s hs).trans hc.symm⟩

/-- Witness of C13: `ComputeResult("apple", "apple")` is what `ParseResult("CCCCC")` returns. -/
theorem ParseResult_roundtrip_witness :
    IsAscii 5 apple ∧ ComputeResult apple apple = ParseResult CorrectResultStr :=
  ⟨by decide, ParseResult_roundtrip.2.2 apple (by decide)⟩


/-! ## Solved puzzles -/

theorem ComputeResult_allCorrect_iff (g s : GoString) (hg : IsAscii 5 g) (hs : IsAscii 5 s) :
    ComputeResult g s = .ok allCorrect ↔ g = s := by
  constructor
  · intro h
    rw [ComputeResult_ascii g s hg hs] at h
    have hv : Mathlib.Vector.ofFn (fun i : Fin 5 => tagAt g s 5 i.val) = allCorrect :=
      Except.ok.inj h
    apply List.ext_getElem?
    intro n
    by_cases hn : n < 5
    · by_contra hne
      have hget := congrArg (fun v => Mathlib.Vector.get v ⟨n, hn⟩) hv
      simp only [Mathlib.Vector.get_ofFn, allCorrect, Mathlib.Vector.get_replicate] at hget
      have hng : n < g.length := by rw [hg.1]; exact hn
      rw [tagAt_of_ne g s 5 n (g.get ⟨n, hng⟩) hne (List.getElem?_eq_getElem hng)] at hget
      split_ifs at hget
    · rw [List.getElem?_eq_none (by rw [hg.1]; omega),
        List.getElem?_eq_none (by rw [hs.1]; omega)]
  · rintro rfl
    exact ComputeResult_refl_ascii g hg

/-- C19, as amended. For a guess `g` and a secret `s` of 5 ASCII characters each,
`ComputeResult(g, s)` is the all-Correct outcome (the value of `ParseResult("CCCCC")`) if and
only if `g = s`; and when `g` and the candidates are such words, `AddResult(g, all-Correct)`
keeps exactly the candidates whose word is `g`. -/
theorem solved_iff (g : GoString) (hg : IsAscii 5 g) :
    (∀ s, IsAscii 5 s → (ComputeResult g s = .ok allCorrect ↔ g = s)) ∧
    ParseResult CorrectResultStr = .ok allCorrect ∧
    (∀ h : heuristicSolver, (∀ c ∈ h.possibleWords, IsAscii 5 c.word) →
      h.AddResult g allCorrect = .ok
        { allWords := h.allWords
          possibleWords := h.possibleWords.filter (fun c => decide (c.word = g)) }) := by
  refine ⟨fun s hs => ComputeResult_allCorrect_iff g s hg hs, by decide, ?_⟩
  intro h hc
  rw [AddResult_eq h g allCorrect (fun c hmem => outcome?_ascii g c.word hg (hc c hmem))]
  congr 2
  apply List.filter_congr
  intro c hmem
  simp only [decide_eq_decide]
  rw [outcome?_eq_some, ComputeResult_allCorrect_iff g c.word hg (hc c hmem)]
  exact eq_comm

/-- Witness of C19: guess "apple" on the corpus apple, ample, apric, allee, peach. -/
theorem solved_iff_witness :
    IsAscii 5 apple ∧ IsAscii 5 peach ∧
    (∀ c ∈ (NewHeuristicSolver smallCorpus).possibleWords, IsAscii 5 c.word) ∧
    (ComputeResult apple peach = .ok allCorrect ↔ apple = peach) ∧
    (NewHeuristicSolver smallCorpus).AddResult apple allCorrect = .ok
      { allWords := smallCorpus
        possibleWords := smallCorpus.filter (fun c => decide (c.word = apple)) } :=
  ⟨by decide, by decide, by decide, (solved_iff apple (by decide)).1 peach (by decide),
    (solved_iff apple (by decide)).2.2 (NewHeuristicSolver smallCorpus) (by decide)⟩

/-- C19 fails on 5-byte strings that are not ASCII: "aébc" against itself is
[Correct, Correct, NotPresent, Correct, Correct], not all-Correct, so `AddResult` with the
all-Correct feedback for that guess drops the candidate "aébc" itself; and on the 5-character
string "éabcd" against itself the call panics. -/
theorem solved_iff_counterexample :
    aEacuteBc.length = 5 ∧
    computeTags aEacuteBc aEacuteBc =
      some [.Correct, .Correct, .NotPresent, .Correct, .Correct] ∧
    (NewHeuristicSolver [⟨aEacuteBc, 1⟩]).AddResult aEacuteBc allCorrect =
      .ok ⟨[⟨aEacuteBc, 1⟩], []⟩ ∧
    (rangeIndices eacuteAbcd).length = 5 ∧
    computeTags eacuteAbcd eacuteAbcd = none := by
  decide


/-! ## Determinism of `NextGuess` -/

theorem sumPartitions_perm (pc : PartitionMap) (l₁ l₂ : PartitionMap) (hp : l₁.Perm l₂) :
    sumPartitions pc l₁ = sumPartitions pc l₂ := by
  unfold sumPartitions
  rw [foldl_add_eq_sum (fun e : GuessResult × Int => mapRead pc e.1 * e.2) l₁ 0,
    foldl_add_eq_sum (fun e : GuessResult × Int => mapRead pc e.1 * e.2) l₂ 0,
    (hp.map _).sum_eq]

theorem calculateScoreForGuessIn_eq (order : PartitionMap → PartitionMap)
    (horder : IsIterationOrder order) (h : heuristicSolver) (g : GoString) :
    h.calculateScoreForGuessIn order g = h.calculateScoreForGuess g := by
  unfold heuristicSolver.calculateScoreForGuessIn heuristicSolver.calculateScoreForGuess
  cases runLoop (scoreStep g) h.possibleWords ([], []) with
  | error e => rfl
  | ok st =>
    obtain ⟨pw, pc⟩ := st
    simp only []
    rw [sumPartitions_perm pc _ _ (horder pw)]

theorem guessStepIn_eq (order : PartitionMap → PartitionMap) (horder : IsIterationOrder order)
    (h : heuristicSolver) : guessStepIn order h = guessStep h := by
  funext st w
  unfold guessStepIn guessStep
  rw [calculateScoreForGuessIn_eq order horder]

theorem NextGuessIn_eq (order : PartitionMap → PartitionMap) (horder : IsIterationOrder order)
    (h : heuristicSolver) (cache : Option GoString) :
    h.NextGuessIn order cache = h.NextGuess cache := by
  unfold heuristicSolver.NextGuessIn heuristicSolver.NextGuess
  rw [guessStepIn_eq order horder]

theorem NextGuess_again (h : heuristicSolver) (g : GoString) (c : Option GoString)
    (h1 : h.NextGuess none = .ok (g, c)) : ∃ c', h.NextGuess c = .ok (g, c') := by
  unfold heuristicSolver.NextGuess at h1 ⊢
  split at h1
  · cases h1
  · cases h1
    exact ⟨_, rfl⟩
  · simp only [ite_self] at h1
    cases hl : runLoop (guessStep h) h.allWords ([], initialMinScore) with
    | error e => rw [hl] at h1; cases h1
    | ok st =>
      obtain ⟨guess, m⟩ := st
      rw [hl] at h1
      simp only [] at h1
      cases h1
      by_cases hlen : h.possibleWords.length = h.allWords.length
      · simp only [hlen, if_true]
        exact ⟨_, rfl⟩
      · simp only [hlen, if_false, hl]
        exact ⟨_, rfl⟩

/-- C17. `NextGuess` returns the guess and the cache only: it assigns no field of the solver.
With no cache present its result depends on `allWords` and `possibleWords` alone: each score
is the same for every order in which the partitions are summed, so two calls on the same state
return the same result whatever the iteration orders, and a second call right after a first
one (seeing the cache the first one left) returns the same guess. -/
theorem NextGuess_deterministic (h : heuristicSolver)
    (order₁ order₂ : PartitionMap → PartitionMap)
    (h₁ : IsIterationOrder order₁) (h₂ : IsIterationOrder order₂) :
    (∀ g, h.calculateScoreForGuessIn order₁ g = h.calculateScoreForGuessIn order₂ g) ∧
    h.NextGuessIn order₁ none = h.NextGuessIn order₂ none ∧
    (∀ g c, h.NextGuessIn order₁ none = .ok (g, c) →
      ∃ c', h.NextGuessIn order₂ c = .ok (g, c')) := by
  refine ⟨fun g => ?_, ?_, fun g c hg => ?_⟩
  · rw [calculateScoreForGuessIn_eq order₁ h₁, calculateScoreForGuessIn_eq order₂ h₂]
  · rw [NextGuessIn_eq order₁ h₁, NextGuessIn_eq order₂ h₂]
  · rw [NextGuessIn_eq order₁ h₁] at hg
    rw [NextGuessIn_eq order₂ h₂]
    exact NextGuess_again h g c hg

/-- Witness of C17 on the corpus apple, ample, apric, allee, peach, the partitions summed oldest
first on one call and newest first on the other: both calls guess "apple". -/
theorem NextGuess_deterministic_witness :
    IsIterationOrder id ∧ IsIterationOrder List.reverse ∧
    (NewHeuristicSolver smallCorpus).NextGuessIn id none = .ok (apple, some apple) ∧
    (NewHeuristicSolver smallCorpus).NextGuessIn List.reverse none = .ok (apple, some apple) ∧
    ∃ c', (NewHeuristicSolver smallCorpus).NextGuessIn List.reverse (some apple) =
      .ok (apple, c') := by
  have hid : IsIterationOrder id := fun m => List.Perm.refl m
  have hrev : IsIterationOrder List.reverse := fun m => List.reverse_perm m
  have h1 : (NewHeuristicSolver smallCorpus).NextGuessIn id none = .ok (apple, some apple) := by
    decide
  have hd := NextGuess_deterministic (NewHeuristicSolver smallCorpus) id List.reverse hid hrev
  exact ⟨hid, hrev, h1, hd.2.1 ▸ h1, hd.2.2 apple (some apple) h1⟩


/-! ## The small corpus -/

theorem specScoreByCandidate_uniform (aw : List word) (ws : List GoString) (w : Int)
    (g : GoString) :
    (⟨aw, ws.map (fun s => ⟨s, w⟩)⟩ : heuristicSolver).specScoreByCandidate g =
      w * sameOutcomeTotal ws g := by
  unfold heuristicSolver.specScoreByCandidate sameOutcomeTotal
  simp only [List.filter_map, List.map_map, List.length_map, Function.comp_def]
  rw [← List.sum_map_mul_left]

theorem score_uniform (aw : List word) (ws : List GoString) (w : Int) (g : GoString)
    (hg : IsAscii 5 g) (hws : ∀ s ∈ ws, IsAscii 5 s) (hlen : ws.length < 2 ^ 63) :
    (⟨aw, ws.map (fun s => ⟨s, w⟩)⟩ : heuristicSolver).calculateScoreForGuess g =
      .ok (w * sameOutcomeTotal ws g) := by
  have hok : ∀ c ∈ (⟨aw, ws.map (fun s => ⟨s, w⟩)⟩ : heuristicSolver).possibleWords,
      ∃ r, ComputeResult g c.word = .ok r := by
    intro c hc
    obtain ⟨s, hs, rfl⟩ := List.mem_map.1 hc
    exact ⟨_, ComputeResult_ascii g s hg (hws s hs)⟩
  obtain ⟨sc, hsc⟩ := calculateScoreForGuess_ok _ g hok
  have hspec := calculateScoreForGuess_spec _ g (by simpa using hlen) sc hsc
  rw [specScore_eq_byCandidate _ g (fun c hc _ => hok c hc),
    specScoreByCandidate_uniform] at hspec
  rw [hsc, hspec]


theorem runLoop_guessStep_uniform (w : Int) (hpos : 0 < w) (hmax : w < 2 ^ 63) :
    runLoop (guessStep (NewHeuristicSolver (uniformCorpus w)))
      (NewHeuristicSolver (uniformCorpus w)).allWords ([], initialMinScore) =
      .ok (apple, w * 4) := by
  have hws : ∀ s ∈ smallWords, IsAscii 5 s := by decide
  have hsc : ∀ g, IsAscii 5 g →
      (NewHeuristicSolver (uniformCorpus w)).calculateScoreForGuess g =
        .ok (w * sameOutcomeTotal smallWords g) :=
    fun g hg => score_uniform _ smallWords w g hg hws (by decide)
  have h1 := hsc apple (by decide)
  have h2 := hsc ample (by decide)
  have h3 := hsc apric (by decide)
  have h4 := hsc allee (by decide)
  have h5 := hsc peach (by decide)
  rw [show sameOutcomeTotal smallWords apple = 4 by decide] at h1
  rw [show sameOutcomeTotal smallWords ample = 4 by decide] at h2
  rw [show sameOutcomeTotal smallWords apric = 4 by decide] at h3
  rw [show sameOutcomeTotal smallWords allee = 6 by decide] at h4
  rw [show sameOutcomeTotal smallWords peach = 6 by decide] at h5
  have hlt : w * 4 < initialMinScore := by
    unfold initialMinScore
    omega
  have hallWords : (NewHeuristicSolver (uniformCorpus w)).allWords =
      [⟨apple, w⟩, ⟨ample, w⟩, ⟨apric, w⟩, ⟨allee, w⟩, ⟨peach, w⟩] := rfl
  have h64 : ¬ w * 6 < w * 4 := by omega
  rw [hallWords]
  simp only [runLoop, guessStep, h1, h2, h3, h4, h5, hlt, h64, lt_irrefl, if_true, if_false]

/-- C15. On the corpus apple, ample, apric, allee, peach (in that order, every weight the same
positive `int64` value `w`) with no cached first guess, the scores are `4w, 4w, 4w, 6w, 6w`, the
first call of `NextGuess` returns "apple", and the solving loop for the secret "apple" stops
after that one call to `NextGuess` (so within 5), its only and last guess being "apple". -/
theorem solveLoop_small (w : Int) (hpos : 0 < w) (hmax : w < 2 ^ 63) :
    (NewHeuristicSolver (uniformCorpus w)).NextGuess none = .ok (apple, some apple) ∧
    solveLoop apple 5 (NewHeuristicSolver (uniformCorpus w)) none = .ok (some [apple]) ∧
    ∀ fuel, 1 ≤ fuel →
      solveLoop apple fuel (NewHeuristicSolver (uniformCorpus w)) none = .ok (some [apple]) := by
  have hng : (NewHeuristicSolver (uniformCorpus w)).NextGuess none = .ok (apple, some apple) := by
    rw [NextGuess_scan _ (by simp [NewHeuristicSolver, uniformCorpus, smallWords]) none
      (fun _ => rfl), runLoop_guessStep_uniform w hpos hmax]
    rfl
  have hloop : ∀ fuel, 1 ≤ fuel →
      solveLoop apple fuel (NewHeuristicSolver (uniformCorpus w)) none = .ok (some [apple]) := by
    intro fuel hf
    obtain ⟨k, rfl⟩ : ∃ k, fuel = k + 1 := ⟨fuel - 1, by omega⟩
    simp only [solveLoop, hng, if_true]
  exact ⟨hng, hloop 5 (by decide), hloop⟩

/-- Witness of C15: weight 1 each. -/
theorem solveLoop_small_witness :
    (0 : Int) < 1 ∧ (1 : Int) < 2 ^ 63 ∧
    solveLoop apple 5 (NewHeuristicSolver (uniformCorpus 1)) none = .ok (some [apple]) :=
  ⟨by decide, by decide, (solveLoop_small 1 (by decide) (by decide)).2.1⟩


/-! ## Progress of the solving loop -/

theorem calculateScoreForGuess_byCandidate (h : heuristicSolver) (g : GoString)
    (hg : IsAscii 5 g) (hpw : ∀ c ∈ h.possibleWords, IsAscii 5 c.word)
    (hlen : h.possibleWords.length < 2 ^ 63) :
    h.calculateScoreForGuess g = .ok (h.specScoreByCandidate g) := by
  have hok : ∀ c ∈ h.possibleWords, ∃ r, ComputeResult g c.word = .ok r :=
    fun c hc => ⟨_, ComputeResult_ascii g c.word hg (hpw c hc)⟩
  obtain ⟨sc, hsc⟩ := calculateScoreForGuess_ok h g hok
  have hspec := calculateScoreForGuess_spec h g hlen sc hsc
  rw [specScore_eq_byCandidate h g (fun c hc _ => hok c hc)] at hspec
  rw [hsc, hspec]

theorem score_eq_byCandidate (h : heuristicSolver) (g : GoString)
    (hg : IsAscii 5 g) (hpw : ∀ c ∈ h.possibleWords, IsAscii 5 c.word)
    (hlen : h.possibleWords.length < 2 ^ 63) :
    h.score g = h.specScoreByCandidate g :=
  score_of_ok h g _ (calculateScoreForGuess_byCandidate h g hg hpw hlen)

/-- Removing candidates of non-negative weight does not raise a score. -/
theorem specScoreByCandidate_mono (aw aw' pw pw' : List word) (g : GoString)
    (hsub : pw'.Sublist pw) (hpos : ∀ c ∈ pw, 0 ≤ c.weight) :
    (⟨aw', pw'⟩ : heuristicSolver).specScoreByCandidate g ≤
      (⟨aw, pw⟩ : heuristicSolver).specScoreByCandidate g := by
  unfold heuristicSolver.specScoreByCandidate
  simp only []
  refine le_trans (List.sum_le_sum (g := fun c : word =>
    c.weight * (((pw.filter (fun c' => decide (c'.word ≠ g ∧
      ComputeResult g c'.word = ComputeResult g c.word))).length : Nat) : Int)) ?_) ?_
  · intro c hc
    have hcpw : c ∈ pw := hsub.subset (List.mem_filter.1 hc).1
    apply Int.mul_le_mul_of_nonneg_left _ (hpos c hcpw)
    exact Int.ofNat_le.2 (hsub.filter _).length_le
  · apply List.Sublist.sum_le_sum ((hsub.filter _).map _)
    intro a ha
    obtain ⟨c, hc, rfl⟩ := List.mem_map.1 ha
    exact Int.mul_nonneg (hpos c (List.mem_filter.1 hc).1) (Int.ofNat_nonneg _)

/-- The scoring loop of `NextGuess`, when some entry of `allWords` scores below the initial
`minScore`: it ends on an entry of `allWords` of minimal score. -/
theorem runLoop_guessStep_min (h : heuristicSolver) (hwf : WellFormed h)
    (hbelow : ∃ w ∈ h.allWords, h.score w.word < initialMinScore) :
    ∃ w ∈ h.allWords,
      runLoop (guessStep h) h.allWords ([], initialMinScore) = .ok (w.word, h.score w.word) ∧
      ∀ w' ∈ h.allWords, h.score w.word ≤ h.score w'.word := by
  obtain ⟨st', hrun, hcase⟩ := runLoop_guessStep h h.allWords
    (calculateScoreForGuess_wellFormed h hwf) ([], initialMinScore)
  rcases hcase with ⟨_, hall⟩ | ⟨pre, w, post, hl, hst, _, hpre, hpost⟩
  · obtain ⟨w, hw, hlt⟩ := hbelow
    exact absurd hlt (not_lt.2 (hall w hw))
  · refine ⟨w, by rw [hl]; simp, by rw [hrun, hst], ?_⟩
    intro w' hw'
    rw [hl] at hw'
    rcases List.mem_append.1 hw' with hmem | hmem
    · exact le_of_lt (hpre w' hmem)
    · rcases List.mem_cons.1 hmem with rfl | hmem'
      · exact le_refl _
      · exact hpost w' hmem'


/-- The score of a guess that is no candidate and splits nothing off: every candidate counts
its weight times the number of candidates. -/
theorem specScoreByCandidate_absent (aw pw : List word) (g : GoString)
    (r : Except Failure GuessResult)
    (hne : ∀ c ∈ pw, c.word ≠ g) (hsame : ∀ c ∈ pw, ComputeResult g c.word = r) :
    (⟨aw, pw⟩ : heuristicSolver).specScoreByCandidate g =
      (pw.map word.weight).sum * (pw.length : Int) := by
  unfold heuristicSolver.specScoreByCandidate
  simp only []
  have houter : pw.filter (fun c => decide (c.word ≠ g)) = pw :=
    List.filter_eq_self.2 (fun c hc => by simpa using hne c hc)
  rw [houter, ← List.sum_map_mul_right]
  congr 1
  apply List.map_congr_left
  intro c hc
  have hinner : pw.filter (fun c' => decide (c'.word ≠ g ∧
      ComputeResult g c'.word = ComputeResult g c.word)) = pw :=
    List.filter_eq_self.2 (fun c' hc' => by
      simpa [hsame c' hc', hsame c hc] using hne c' hc')
  rw [hinner]

/-- The score of a guess that is a candidate: every other candidate counts its weight times at
most the number of candidates less one. -/
theorem specScoreByCandidate_present (aw pw : List word) (cs : word) (hcs : cs ∈ pw)
    (hpos : ∀ c ∈ pw, 0 ≤ c.weight) :
    (⟨aw, pw⟩ : heuristicSolver).specScoreByCandidate cs.word ≤
      (pw.map word.weight).sum * ((pw.length - 1 : Nat) : Int) := by
  unfold heuristicSolver.specScoreByCandidate
  simp only []
  refine le_trans (List.sum_le_sum (g := fun c : word =>
    c.weight * ((pw.length - 1 : Nat) : Int)) ?_) ?_
  · intro c hc
    apply Int.mul_le_mul_of_nonneg_left _ (hpos c (List.mem_filter.1 hc).1)
    have hlt : (pw.filter (fun c' => decide (c'.word ≠ cs.word ∧
        ComputeResult cs.word c'.word = ComputeResult cs.word c.word))).length < pw.length :=
      List.length_filter_lt_length_iff_exists.2 ⟨cs, hcs, by simp⟩
    exact Int.ofNat_le.2 (by omega)
  · rw [List.sum_map_mul_right]
    apply Int.mul_le_mul_of_nonneg_right _ (Int.ofNat_nonneg _)
    apply List.Sublist.sum_le_sum ((List.filter_sublist _).map _)
    intro a ha
    obtain ⟨c, hc, rfl⟩ := List.mem_map.1 ha
    exact hpos c hc

theorem sum_weights_pos (pw : List word) (hpos : ∀ c ∈ pw, 0 < c.weight) (hne : pw ≠ []) :
    0 < (pw.map word.weight).sum := by
  cases pw with
  | nil => exact absurd rfl hne
  | cons a l =>
    rw [List.map_cons, List.sum_cons]
    have h1 := hpos a (List.mem_cons_self _ _)
    have h2 : 0 ≤ (l.map word.weight).sum :=
      List.sum_nonneg (fun x hx => by
        obtain ⟨c, hc, rfl⟩ := List.mem_map.1 hx
        exact le_of_lt (hpos c (List.mem_cons_of_mem _ hc)))
    omega

/-- A guess of minimal score that is not the secret eliminates a candidate: if the guess is a
candidate itself it goes, and if it is not and eliminated nothing, its score would exceed the
score of the secret. -/
theorem AddResult_progress (h : heuristicSolver) (hwf : WellFormed h)
    (hmem : ∀ c ∈ h.possibleWords, c ∈ h.allWords)
    (hpos : ∀ w ∈ h.allWords, 0 < w.weight) (hlen : h.possibleWords.length < 2 ^ 63)
    (g : word) (hmin : ∀ w' ∈ h.allWords, h.score g.word ≤ h.score w'.word)
    (hg : IsAscii 5 g.word)
    (cs : word) (hcs : cs ∈ h.possibleWords) (hne : g.word ≠ cs.word) (r : GuessResult)
    (hr : ComputeResult g.word cs.word = .ok r) :
    (h.possibleWords.filter (fun c => decide (outcome? g.word c.word = some r))).length <
      h.possibleWords.length := by
  rw [List.length_filter_lt_length_iff_exists]
  by_contra hno
  have hall : ∀ c ∈ h.possibleWords, ComputeResult g.word c.word = .ok r := by
    intro c hc
    by_contra hcr
    exact hno ⟨c, hc, by simpa using fun hq => hcr ((outcome?_eq_some g.word c.word r).1 hq)⟩
  have hsascii : IsAscii 5 cs.word := hwf.2 cs hcs
  have hrne : r ≠ allCorrect := by
    intro hrc
    rw [hrc] at hr
    exact hne ((ComputeResult_allCorrect_iff g.word cs.word hg hsascii).1 hr)
  have habs : ∀ c ∈ h.possibleWords, c.word ≠ g.word := by
    intro c hc hcg
    have h1 := hall c hc
    rw [hcg, (ComputeResult_allCorrect_iff g.word g.word hg hg).2 rfl] at h1
    exact hrne (Except.ok.inj h1).symm
  have hposw : ∀ c ∈ h.possibleWords, 0 ≤ c.weight :=
    fun c hc => le_of_lt (hpos c (hmem c hc))
  have hscg : h.score g.word =
      (h.possibleWords.map word.weight).sum * (h.possibleWords.length : Int) := by
    rw [score_eq_byCandidate h g.word hg hwf.2 hlen]
    exact specScoreByCandidate_absent h.allWords h.possibleWords g.word _ habs hall
  have hscs : h.score cs.word ≤
      (h.possibleWords.map word.weight).sum * ((h.possibleWords.length - 1 : Nat) : Int) := by
    rw [score_eq_byCandidate h cs.word hsascii hwf.2 hlen]
    exact specScoreByCandidate_present h.allWords h.possibleWords cs hcs hposw
  have hW := sum_weights_pos h.possibleWords (fun c hc => hpos c (hmem c hc))
    (List.ne_nil_of_mem hcs)
  have hle := hmin cs (hmem cs hcs)
  rw [hscg] at hle
  have hlen1 : 1 ≤ h.possibleWords.length := List.length_pos_of_mem hcs
  have hcast : ((h.possibleWords.length - 1 : Nat) : Int) = (h.possibleWords.length : Int) - 1 := by
    omega
  rw [hcast] at hscs
  nlinarith [le_trans hle hscs]


theorem LoopInvariant_sublist (h : heuristicSolver) (hinv : LoopInvariant h)
    (pw : List word) (hpw : pw.Sublist h.possibleWords) : LoopInvariant ⟨h.allWords, pw⟩ := by
  obtain ⟨hwf, hsub, hpos, hlen, hbelow⟩ := hinv
  have hpwlen : h.possibleWords.length < 2 ^ 63 := lt_of_le_of_lt hsub.length_le hlen
  refine ⟨⟨hwf.1, fun c hc => hwf.2 c (hpw.subset hc)⟩, hpw.trans hsub, hpos, hlen, ?_⟩
  intro w hw
  refine lt_of_le_of_lt ?_ (hbelow w hw)
  rw [score_eq_byCandidate _ w.word (hwf.1 w hw)
      (fun c hc => hwf.2 c (hpw.subset hc))
      (lt_of_le_of_lt hpw.length_le hpwlen),
    score_eq_byCandidate h w.word (hwf.1 w hw) hwf.2 hpwlen]
  exact specScoreByCandidate_mono h.allWords h.allWords h.possibleWords _ w.word hpw
    (fun c hc => le_of_lt (hpos c (hsub.subset hc)))

theorem LoopInvariant_filter (h : heuristicSolver) (hinv : LoopInvariant h)
    (p : word → Bool) : LoopInvariant ⟨h.allWords, h.possibleWords.filter p⟩ :=
  LoopInvariant_sublist h hinv _ (List.filter_sublist _)

/-- One round of the solving loop in a state with at least two candidates: the scoring loop
ends on an entry `g` of `allWords`, and if its word is not the secret, `AddResult` returns a
state with strictly fewer candidates, the secret among them. -/
theorem solveLoop_round (h : heuristicSolver) (hinv : LoopInvariant h)
    (cs : word) (hcs : cs ∈ h.possibleWords) :
    ∃ g ∈ h.allWords,
      runLoop (guessStep h) h.allWords ([], initialMinScore) = .ok (g.word, h.score g.word) ∧
      (∀ w' ∈ h.allWords, h.score g.word ≤ h.score w'.word) ∧
      (g.word ≠ cs.word → ∃ r h', ComputeResult g.word cs.word = .ok r ∧
        h.AddResult g.word r = .ok h' ∧
        h'.possibleWords.length < h.possibleWords.length ∧ cs ∈ h'.possibleWords ∧
        h'.allWords = h.allWords ∧ h'.possibleWords.Sublist h.possibleWords ∧
        LoopInvariant h') := by
  have hinv' := hinv
  obtain ⟨hwf, hsub, hpos, hlen, hbelow⟩ := hinv
  have hcsaw : cs ∈ h.allWords := hsub.subset hcs
  obtain ⟨g, hg, hrun, hmin⟩ := runLoop_guessStep_min h hwf ⟨cs, hcsaw, hbelow cs hcsaw⟩
  refine ⟨g, hg, hrun, hmin, ?_⟩
  intro hne
  have hr := ComputeResult_ascii g.word cs.word (hwf.1 g hg) (hwf.2 cs hcs)
  have hadd := AddResult_eq h g.word (Mathlib.Vector.ofFn (fun i => tagAt g.word cs.word 5 i.val))
    (fun c hc => outcome?_ascii g.word c.word (hwf.1 g hg) (hwf.2 c hc))
  refine ⟨_, _, hr, hadd, ?_, ?_, rfl, List.filter_sublist _, LoopInvariant_filter h hinv' _⟩
  · exact AddResult_progress h hwf (fun c hc => hsub.subset hc) hpos
      (lt_of_le_of_lt hsub.length_le hlen) g hmin (hwf.1 g hg) cs hcs hne _ hr
  · exact List.mem_filter.2 ⟨hcs, by simpa using (outcome?_eq_some g.word cs.word _).2 hr⟩

theorem NextGuess_one (h : heuristicSolver) (w : word) (cache : Option GoString)
    (hpw : h.possibleWords = [w]) : h.NextGuess cache = .ok (w.word, cache) := by
  unfold heuristicSolver.NextGuess
  rw [hpw]

theorem NextGuess_cached (h : heuristicSolver) (hlen : 2 ≤ h.possibleWords.length)
    (heq : h.possibleWords.length = h.allWords.length) (c : GoString) :
    h.NextGuess (some c) = .ok (c, some c) := by
  obtain ⟨aw, pw⟩ := h
  unfold heuristicSolver.NextGuess
  split
  · next hnil => rw [hnil] at hlen; simp at hlen
  · next w hw => rw [hw] at hlen; simp at hlen
  · rw [if_pos heq]

theorem NextGuess_inStep (h : heuristicSolver) (hlen : 2 ≤ h.possibleWords.length)
    (cache : Option GoString) (hcache : CacheInStep h cache) (g : GoString) (sc : Int)
    (hrun : runLoop (guessStep h) h.allWords ([], initialMinScore) = .ok (g, sc)) :
    ∃ cache', h.NextGuess cache = .ok (g, cache') := by
  by_cases heq : h.possibleWords.length = h.allWords.length
  · cases cache with
    | none =>
      have hng := NextGuess_scan h hlen none (fun _ => rfl)
      rw [hrun] at hng
      exact ⟨_, hng⟩
    | some c =>
      obtain ⟨sc', hc⟩ := hcache c rfl heq
      rw [hrun] at hc
      have hgc : g = c := congrArg Prod.fst (Except.ok.inj hc)
      subst hgc
      exact ⟨_, NextGuess_cached h hlen heq g⟩
  · have hng := NextGuess_scan h hlen cache (fun h1 => absurd h1 heq)
    rw [hrun] at hng
    exact ⟨_, hng⟩

/-- The solving loop stops: from a state of the loop with the secret among at most `n`
candidates, and the cache in step with the state, it reaches the secret within `n` calls to
`NextGuess`. -/
theorem solveLoop_stops (cs : word) :
    ∀ (n : Nat) (h : heuristicSolver) (cache : Option GoString),
      h.possibleWords.length ≤ n → LoopInvariant h → cs ∈ h.possibleWords →
      CacheInStep h cache →
      ∀ fuel, n ≤ fuel →
        ∃ guesses, solveLoop cs.word fuel h cache = .ok (some guesses) ∧
          guesses.length ≤ n ∧ guesses.getLast? = some cs.word := by
  intro n
  induction n with
  | zero =>
    intro h cache hn _ hcs
    have := List.length_pos_of_mem hcs
    omega
  | succ n ih =>
    intro h cache hn hinv hcs hcache fuel hfuel
    obtain ⟨f, rfl⟩ : ∃ f, fuel = f + 1 := ⟨fuel - 1, by omega⟩
    by_cases hone : h.possibleWords.length = 1
    · obtain ⟨c, hc⟩ := List.length_eq_one.1 hone
      have hcc : cs = c := by
        rw [hc] at hcs
        exact List.mem_singleton.1 hcs
      subst hcc
      refine ⟨[cs.word], ?_, by simp, rfl⟩
      simp only [solveLoop, NextGuess_one h cs cache hc, if_true]
    · have hlen2 : 2 ≤ h.possibleWords.length := by
        have := List.length_pos_of_mem hcs
        omega
      obtain ⟨g, _, hrun, _, hstep⟩ := solveLoop_round h hinv cs hcs
      obtain ⟨cache', hng⟩ := NextGuess_inStep h hlen2 cache hcache g.word _ hrun
      by_cases hgs : g.word = cs.word
      · refine ⟨[g.word], ?_, by simp, by rw [hgs]; rfl⟩
        simp only [solveLoop, hng, if_pos hgs]
      · obtain ⟨r, h', hr, hadd, hlt, hcs', haw, hsub', hinv'⟩ := hstep hgs
        have hlt' : h'.possibleWords.length < h'.allWords.length := by
          rw [haw]
          exact lt_of_lt_of_le hlt hinv.2.1.length_le
        obtain ⟨guesses, hrec, hglen, hlast⟩ := ih h' cache'
          (by omega) hinv' hcs' (fun _ _ heq => by omega) f (by omega)
        refine ⟨g.word :: guesses, ?_, by simp; omega, ?_⟩
        · simp only [solveLoop, hng, if_neg hgs, hr, hadd, hrec]
        · rw [List.getLast?_cons, hlast]
          rfl


/-- C18, as amended. For every corpus `AllWords` of words of 5 ASCII characters with strictly
positive weights (fewer than `2^63` entries, as in any Go slice) whose scores all lie below the
initial `minScore` `(2^63-1)^2`: for every sub-list `PossibleWords` of `AllWords` with at least
two entries and every entry of it, whose word is the secret `s`, `NextGuess` with no cache
returns the guess `g` of its scoring loop, and if `g ≠ s` then `ComputeResult(g, s)` and
`AddResult(g, ComputeResult(g, s))` return and leave `allWords` as it was and `possibleWords` a
strictly shorter sub-list of the previous one that still holds the secret. Hence the solving
loop started from `NewHeuristicSolver AllWords` with no cache, for a secret that is a word of
the corpus, stops within `|AllWords|` calls to `NextGuess`, its last guess being the secret;
and so does the loop started with the cache an earlier `NextGuess` on the fresh solver left.
(The words need not be pairwise distinct.) -/
theorem solveLoop_progress (AllWords : List word)
    (hascii : ∀ w ∈ AllWords, IsAscii 5 w.word) (hpos : ∀ w ∈ AllWords, 0 < w.weight)
    (hlen : AllWords.length < 2 ^ 63)
    (hbelow : ∀ w ∈ AllWords, (NewHeuristicSolver AllWords).score w.word < initialMinScore) :
    (∀ PossibleWords : List word, PossibleWords.Sublist AllWords → 2 ≤ PossibleWords.length →
      ∀ cs ∈ PossibleWords,
        ∃ g, (⟨AllWords, PossibleWords⟩ : heuristicSolver).NextGuess none =
            .ok (g, if PossibleWords.length = AllWords.length then some g else none) ∧
          (g ≠ cs.word → ∃ r h', ComputeResult g cs.word = .ok r ∧
            (⟨AllWords, PossibleWords⟩ : heuristicSolver).AddResult g r = .ok h' ∧
            h'.possibleWords.length < PossibleWords.length ∧
            (∃ c ∈ h'.possibleWords, c.word = cs.word) ∧
            h'.allWords = AllWords ∧ h'.possibleWords.Sublist PossibleWords)) ∧
    (∀ cs ∈ AllWords,
      ∃ guesses, solveLoop cs.word AllWords.length (NewHeuristicSolver AllWords) none =
          .ok (some guesses) ∧
        guesses.length ≤ AllWords.length ∧ guesses.getLast? = some cs.word) ∧
    (∀ cs ∈ AllWords, ∀ g0 cache,
      (NewHeuristicSolver AllWords).NextGuess none = .ok (g0, cache) →
      ∃ guesses, solveLoop cs.word AllWords.length (NewHeuristicSolver AllWords) cache =
          .ok (some guesses) ∧
        guesses.length ≤ AllWords.length ∧ guesses.getLast? = some cs.word) := by
  have hinv : LoopInvariant (NewHeuristicSolver AllWords) :=
    ⟨⟨hascii, hascii⟩, List.Sublist.refl _, hpos, hlen, hbelow⟩
  refine ⟨?_, ?_, ?_⟩
  · intro PossibleWords hsub hlen2 cs hcs
    have hinv' : LoopInvariant (⟨AllWords, PossibleWords⟩ : heuristicSolver) :=
      LoopInvariant_sublist (NewHeuristicSolver AllWords) hinv PossibleWords hsub
    obtain ⟨g, _, hrun, _, hstep⟩ :=
      solveLoop_round (⟨AllWords, PossibleWords⟩ : heuristicSolver) hinv' cs hcs
    have hng := NextGuess_scan (⟨AllWords, PossibleWords⟩ : heuristicSolver) hlen2 none
      (fun _ => rfl)
    rw [hrun] at hng
    refine ⟨g.word, hng, ?_⟩
    intro hne
    obtain ⟨r, h', hr, hadd, hlt, hcs', haw, hsub', _⟩ := hstep hne
    exact ⟨r, h', hr, hadd, hlt, ⟨cs, hcs', rfl⟩, haw, hsub'⟩
  · intro cs hcs
    exact solveLoop_stops cs AllWords.length (NewHeuristicSolver AllWords) none (le_refl _) hinv
      hcs (fun _ hc => by cases hc) AllWords.length (le_refl _)
  · intro cs hcs g0 cache hng
    refine solveLoop_stops cs AllWords.length (NewHeuristicSolver AllWords) cache (le_refl _)
      hinv hcs ?_ AllWords.length (le_refl _)
    intro c hc heq
    subst hc
    by_cases hlen2 : 2 ≤ (NewHeuristicSolver AllWords).possibleWords.length
    · rw [NextGuess_scan _ hlen2 none (fun _ => rfl)] at hng
      cases hrun : runLoop (guessStep (NewHeuristicSolver AllWords))
          (NewHeuristicSolver AllWords).allWords ([], initialMinScore) with
      | error e => rw [hrun] at hng; cases hng
      | ok st =>
        rw [hrun] at hng
        obtain ⟨g, sc⟩ := st
        simp only [Except.ok.injEq, Prod.mk.injEq] at hng
        have hc := hng.2
        rw [if_pos heq] at hc
        cases hc
        exact ⟨sc, rfl⟩
    · exfalso
      have hone : (NewHeuristicSolver AllWords).possibleWords.length = 1 := by
        have := List.length_pos_of_mem hcs
        have h2 : (NewHeuristicSolver AllWords).possibleWords = AllWords := rfl
        rw [h2] at hlen2 ⊢
        omega
      obtain ⟨w, hw⟩ := List.length_eq_one.1 hone
      rw [NextGuess_one _ w none hw] at hng
      cases hng

/-- Witness of C18: on the corpus apple, ample, apric, allee, peach (weight 1 each) the solving
loop for the secret "peach" stops within 5 calls to `NextGuess`, its last guess being
"peach". -/
theorem solveLoop_progress_witness :
    (∀ w ∈ smallCorpus, IsAscii 5 w.word) ∧ (∀ w ∈ smallCorpus, 0 < w.weight) ∧
    smallCorpus.length < 2 ^ 63 ∧
    (∀ w ∈ smallCorpus, (NewHeuristicSolver smallCorpus).score w.word < initialMinScore) ∧
    ∃ guesses, solveLoop peach smallCorpus.length (NewHeuristicSolver smallCorpus) none =
        .ok (some guesses) ∧
      guesses.length ≤ smallCorpus.length ∧ guesses.getLast? = some peach :=
  ⟨by decide, by decide, by decide, by decide,
    (solveLoop_progress smallCorpus (by decide) (by decide) (by decide) (by decide)).2.1
      ⟨peach, 1⟩ (by decide)⟩

theorem solveLoop_cached (fuel : Nat) :
    solveLoop abcdEgrave fuel (NewHeuristicSolver accentCorpus) (some abcdEacute) = .ok none := by
  induction fuel with
  | zero => rfl
  | succ f ih =>
    have hng : (NewHeuristicSolver accentCorpus).NextGuess (some abcdEacute) =
        .ok (abcdEacute, some abcdEacute) := by decide
    have hne : ¬ abcdEacute = abcdEgrave := by decide
    have hr : ComputeResult abcdEacute abcdEgrave = .ok allCorrect := by decide
    have hadd : (NewHeuristicSolver accentCorpus).AddResult abcdEacute allCorrect =
        .ok (NewHeuristicSolver accentCorpus) := by decide
    simp only [solveLoop, hng, if_neg hne, hr, hadd, ih]

/-- Counterexample to C18 as stated. "abcdé" and "abcdè" are two distinct words of 5 letters
(6 bytes each, the last letter being two bytes). On the corpus of these two words with weight 1
each, both scores are 1, `NextGuess` returns "abcdé", and for the secret "abcdè"
`ComputeResult("abcdé", "abcdè")` is all-Correct, so `AddResult` leaves both candidates in
`possibleWords`: the list is not shorter, and the loop, which now gets the cached "abcdé" from
every `NextGuess`, never reaches the secret. The same happens with the 5-byte words "éabc" and
"èabc". -/
theorem solveLoop_progress_counterexample :
    abcdEacute ≠ abcdEgrave ∧
    (rangeRunes abcdEacute).length = 5 ∧ (rangeRunes abcdEgrave).length = 5 ∧
    (NewHeuristicSolver accentCorpus).calculateScoreForGuess abcdEacute = .ok 1 ∧
    (NewHeuristicSolver accentCorpus).calculateScoreForGuess abcdEgrave = .ok 1 ∧
    (1 : Int) < initialMinScore ∧
    (NewHeuristicSolver accentCorpus).NextGuess none = .ok (abcdEacute, some abcdEacute) ∧
    ComputeResult abcdEacute abcdEgrave = .ok allCorrect ∧
    (NewHeuristicSolver accentCorpus).AddResult abcdEacute allCorrect =
      .ok (NewHeuristicSolver accentCorpus) ∧
    (∀ fuel, solveLoop abcdEgrave fuel (NewHeuristicSolver accentCorpus) none = .ok none) ∧
    eacuteAbc ≠ egraveAbc ∧ eacuteAbc.length = 5 ∧ egraveAbc.length = 5 ∧
    (NewHeuristicSolver accentCorpus5).NextGuess none = .ok (eacuteAbc, some eacuteAbc) ∧
    (∃ r, ComputeResult eacuteAbc egraveAbc = .ok r ∧
      (NewHeuristicSolver accentCorpus5).AddResult eacuteAbc r =
        .ok (NewHeuristicSolver accentCorpus5)) := by
  refine ⟨by decide, by decide, by decide, by decide, by decide, by decide, by decide, by decide,
    by decide, ?_, by decide, by decide, by decide, by decide,
    ⟨Mathlib.Vector.ofFn (fun i => if i.val = 1 then .NotPresent else .Correct),
      by decide, by decide⟩⟩
  intro fuel
  cases fuel with
  | zero => rfl
  | succ f =>
    have hng : (NewHeuristicSolver accentCorpus).NextGuess none =
        .ok (abcdEacute, some abcdEacute) := by decide
    have hne : ¬ abcdEacute = abcdEgrave := by decide
    have hr : ComputeResult abcdEacute abcdEgrave = .ok allCorrect := by decide
    have hadd : (NewHeuristicSolver accentCorpus).AddResult abcdEacute allCorrect =
        .ok (NewHeuristicSolver accentCorpus) := by decide
    simp only [solveLoop, hng, if_neg hne, hr, hadd, solveLoop_cached f]

end WordleSolver
